import Mathlib

/-!
Shallow embedding of the paragraph layout core in `src/library/text/par.rs`
(flattening, BiDi-aware line construction, greedy line breaking, breakpoint
generation with optional hyphenation, line building and stacking).

Conventions of the embedding:
* `f64` lengths and fractional weights are modelled as integers: every
  operation the claims touch is addition, subtraction, `max`, comparison, or a
  division that the theorems carry symbolically.
* Byte offsets into the flattened UTF-8 text are modelled as character offsets
  into a `List Char`; every offset the code manipulates lies on a character
  boundary, so the two views are in order-preserving bijection.
* Fallible spots of the code (`unwrap` after `find`) are modelled with `Option`.
* External collaborators (shaper, hyphenator, Unicode line breaking, BiDi
  visual runs, frame merging) are modelled from their interface contracts in
  the specification; such definitions carry a `Modelled from the spec` note.
-/

namespace Par

abbrev Length := ℤ

/-- A two-dimensional size, `Size { x, y }`. -/
structure Size where
  x : Length
  y : Length
deriving DecidableEq, Repr

/-- Rust `std::ops::Range<usize>` over text offsets (`end` is a Lean keyword,
so the field is named `stop`). -/
structure Rng where
  start : ℕ
  stop : ℕ
deriving DecidableEq, Repr

/-- `Range::is_empty`: `!(start < end)`. -/
def Rng.isEmpty (r : Rng) : Bool := decide (r.stop ≤ r.start)

/-- `Range::contains` / the `Equal` case of `RangeExt::locate`: `start <= o < end`. -/
def Rng.containsB (r : Rng) (o : ℕ) : Bool := decide (r.start ≤ o ∧ o < r.stop)

/-- `str::trim_end` trims `char::is_whitespace` characters: the Unicode
`White_Space` property. -/
def isWhitespace (c : Char) : Bool :=
  decide ((0x09 ≤ c.toNat ∧ c.toNat ≤ 0x0D) ∨ c.toNat = 0x20 ∨ c.toNat = 0x85 ∨
    c.toNat = 0xA0 ∨ c.toNat = 0x1680 ∨ (0x2000 ≤ c.toNat ∧ c.toNat ≤ 0x200A) ∨
    c.toNat = 0x2028 ∨ c.toNat = 0x2029 ∨ c.toNat = 0x202F ∨ c.toNat = 0x205F ∨
    c.toNat = 0x3000)

/-- Rust `char::is_alphabetic` (Unicode `Alphabetic`), restricted to the ASCII
letters that the texts in this development use. -/
def isAlphabetic (c : Char) : Bool := c.isAlpha

/-- The slice `text[s..e]` of the flattened text. -/
def sliceCC (t : List Char) (s e : ℕ) : List Char := (t.take e).drop s

/-- `text.trim_end().len()`: the length of `t` with trailing whitespace removed. -/
def trimEndLen (t : List Char) : ℕ := (t.reverse.dropWhile isWhitespace).length

/-- `str::trim_end_matches(p)`: repeatedly strip a matching suffix. -/
def trimEndMatches (p : Char → Bool) (t : List Char) : List Char :=
  (t.reverse.dropWhile p).reverse

/-- Modelled from the spec: the font metrics the external shaper consults — a
per-character advance width plus an ascent/descent pair that determine a shaped
run's size and baseline (spec section 3, `ShapedText` contract). -/
structure Font where
  ascent : Length
  descent : Length
  charWidth : Char → Length
  hyphenWidth : Length

/-- A shaped text run (contract from the external shaper, spec section 3):
its source text, measured size and baseline. -/
structure ShapedText where
  text : List Char
  size : Size
  baseline : Length
deriving DecidableEq, Repr

/-- Modelled from the spec: `shape` converts text into a `ShapedText` whose
width is the sum of glyph advances and whose vertical metrics come from the
font, also for the empty string (spec sections 3 and 6). -/
def shape (f : Font) (t : List Char) : ShapedText :=
  { text := t
    size := { x := (t.map f.charWidth).sum, y := f.ascent + f.descent }
    baseline := f.ascent }

/-- Modelled from the spec: `ShapedText::reshape` re-shapes a contained
subrange of the run (spec section 3). -/
def ShapedText.reshape (st : ShapedText) (f : Font) (sub : Rng) : ShapedText :=
  shape f (sliceCC st.text sub.start sub.stop)

/-- Modelled from the spec: `ShapedText::push_hyphen` appends one hyphen glyph
in the run's font, widening the run (spec section 3). -/
def ShapedText.push_hyphen (st : ShapedText) (f : Font) : ShapedText :=
  { st with size := { x := st.size.x + f.hyphenWidth, y := st.size.y } }

/-- `ShapedText::spaces`: the number of ASCII-space cluster positions. -/
def ShapedText.spaces (st : ShapedText) : ℕ := st.text.count ' '

/-- A frame: fixed size, optional baseline, and the positions and sizes of the
content merged into it. -/
structure Frame where
  size : Size
  baseline : Option Length
  elements : List (Length × Length × Size)
deriving DecidableEq, Repr

/-- `Frame::new(size)`. -/
def Frame.new (s : Size) : Frame := { size := s, baseline := none, elements := [] }

/-- `Frame::baseline()`: the explicit baseline, or the full height. -/
def Frame.baselineOf (fr : Frame) : Length := fr.baseline.getD fr.size.y

/-- Modelled from the spec: `Frame::merge_frame(pos, sub)` places the content
of `sub` at `pos`; it does not alter the receiver's size or baseline
(spec section 4.5, placement). -/
def Frame.merge_frame (out : Frame) (x y : Length) (sub : Frame) : Frame :=
  { out with elements := out.elements ++ [(x, y, sub.size)] }

/-- Modelled from the spec: `ShapedText::build` realises the run as a frame,
applying the per-space justification stretch at each space (spec section 4.5). -/
def ShapedText.build (st : ShapedText) (justification : Length) : Frame :=
  { size := { x := st.size.x + justification * (st.spaces : ℤ), y := st.size.y }
    baseline := some st.baseline
    elements := [] }

/-- A prepared item in a paragraph layout (`ParItem`). -/
inductive ParItem where
  | absolute (v : Length)
  | fractional (v : Length)
  | text (shaped : ShapedText)
  | frame (fr : Frame)
deriving DecidableEq, Repr

/-- Width contribution of an item during measurement. -/
def ParItem.width : ParItem → Length
  | .absolute v => v
  | .fractional _ => 0
  | .text shaped => shaped.size.x
  | .frame fr => fr.size.x

/-- Fractional contribution of an item during measurement. -/
def ParItem.frWeight : ParItem → Length
  | .fractional v => v
  | _ => 0

/-- Baseline (ascent) contribution of an item, for `top.set_max`. -/
def ParItem.ascent : ParItem → Option Length
  | .text shaped => some shaped.baseline
  | .frame fr => some fr.baselineOf
  | _ => none

/-- Descent contribution of an item, for `bottom.set_max`. -/
def ParItem.descent : ParItem → Option Length
  | .text shaped => some (shaped.size.y - shaped.baseline)
  | .frame fr => some (fr.size.y - fr.baselineOf)
  | _ => none

/-- BiDi information over the flattened text: per-character embedding levels
and the paragraph ranges (`BidiInfo`). -/
structure BidiInfo where
  text : List Char
  levels : List ℕ
  paragraphs : List Rng
deriving DecidableEq, Repr

/-- A paragraph representation with pre-layouted children (`ParLayout`):
BiDi info, items, and the range of each item in the flattened text. -/
structure ParLayout where
  bidi : BidiInfo
  items : List ParItem
  ranges : List Rng
deriving DecidableEq, Repr

/-- `binary_search_by(|r| r.locate(o))` over sorted, disjoint ranges: the index
of the range containing `o` (the code's ranges are sorted and contiguous, so
binary search and first-match search agree). -/
def findRange : List Rng → ℕ → Option ℕ
  | [], _ => none
  | r :: rest, o =>
    if r.containsB o then some 0 else (findRange rest o).map (· + 1)

/-- `ParLayout::find`. -/
def ParLayout.find (p : ParLayout) (o : ℕ) : Option ℕ := findRange p.ranges o

/-- A lightweight representation of a line spanning a range of the paragraph
text (`LineLayout`): borrowed BiDi info, reshaped edge items, the untouched
middle items, their ranges, and the measured size, baseline, fractional weight
and mandatory flag. -/
structure LineLayout where
  bidi : BidiInfo
  range : Rng
  first : Option ParItem
  items : List ParItem
  last : Option ParItem
  ranges : List Rng
  size : Size
  baseline : Length
  fr : Length
  mandatory : Bool
deriving DecidableEq, Repr

/-- Step two of `ParLayout::line` (par.rs lines 304-330): reshape the last
item if the line splits it, trimming trailing whitespace off the line's range.
Returns the reshaped `last` item, the remaining middle items, and the line's
updated end offset. -/
def lineTrimLast (p : ParLayout) (f : Font) (r : Rng) (hyphen : Bool) (last_idx : ℕ)
    (items0 : List ParItem) : Option ParItem × List ParItem × ℕ :=
  match items0.getLast? with
  | some (ParItem.text shaped) =>
    let rest := items0.dropLast
    let base := (p.ranges.getD last_idx ⟨0, 0⟩).start
    let start := max r.start base
    let estop := start + trimEndLen (sliceCC p.bidi.text start r.stop)
    if estop - start < shaped.text.length then
      let lastItem : Option ParItem :=
        if estop - start ≠ 0 ∨ rest.isEmpty then
          let reshaped := shaped.reshape f ⟨start - base, estop - base⟩
          some (ParItem.text (if hyphen then reshaped.push_hyphen f else reshaped))
        else none
      (lastItem, rest, estop)
    else (none, items0, r.stop)
  | _ => (none, items0, r.stop)

/-- Step three of `ParLayout::line` (par.rs lines 332-350): reshape the first
item if the line splits it. Returns the reshaped `first` item and the
remaining middle items. -/
def lineSliceFirst (p : ParLayout) (f : Font) (rstart rstop : ℕ) (first_idx : ℕ)
    (items1 : List ParItem) : Option ParItem × List ParItem :=
  match items1.head? with
  | some (ParItem.text shaped) =>
    let rest := items1.drop 1
    let frng := p.ranges.getD first_idx ⟨0, 0⟩
    let estop2 := min rstop frng.stop
    if estop2 - rstart < shaped.text.length then
      (if estop2 - rstart ≠ 0 then
          some (ParItem.text (shaped.reshape f ⟨rstart - frng.start, estop2 - frng.start⟩))
        else none, rest)
    else (none, items1)
  | _ => (none, items1)

/-- `ParLayout::line`: create a line spanning `r`, reshaping the edge items and
trimming trailing whitespace, then measuring size, baseline and fractional
weight. An `unwrap` failure of `find` is modelled as `none`. -/
def ParLayout.line (p : ParLayout) (f : Font) (r : Rng) (mandatory hyphen : Bool) :
    Option LineLayout := do
  let last_idx ← p.find (r.stop - 1)
  let first_idx ← if r.isEmpty then pure last_idx else p.find r.start
  let count := last_idx + 1 - first_idx
  let items0 := (p.items.drop first_idx).take count
  let rangesSlice := (p.ranges.drop first_idx).take count
  let step1 := lineTrimLast p f r hyphen last_idx items0
  let lastItem := step1.1
  let items1 := step1.2.1
  let rstop := step1.2.2
  let step2 := lineSliceFirst p f r.start rstop first_idx items1
  let firstItem := step2.1
  let items2 := step2.2
  -- Measure the size of the line.
  let all := firstItem.toList ++ items2 ++ lastItem.toList
  let width := (all.map ParItem.width).sum
  let fr := (all.map ParItem.frWeight).sum
  let top := (all.filterMap ParItem.ascent).foldl max 0
  let bottom := (all.filterMap ParItem.descent).foldl max 0
  pure
    { bidi := p.bidi
      range := ⟨r.start, rstop⟩
      first := firstItem
      items := items2
      last := lastItem
      ranges := rangesSlice
      size := ⟨width, top + bottom⟩
      baseline := top
      fr := fr
      mandatory := mandatory }

/-- `LineLayout::items`: the line's items in logical order,
`[first?] ++ middle ++ [last?]`. -/
def LineLayout.itemsView (l : LineLayout) : List ParItem :=
  l.first.toList ++ l.items ++ l.last.toList

/-- `LineLayout::shapeds`: the line's shaped text items. -/
def LineLayout.shapeds (l : LineLayout) : List ShapedText :=
  l.itemsView.filterMap (fun item =>
    match item with
    | ParItem.text shaped => some shaped
    | _ => none)

/-- `LineLayout::spaces`: the number of spaces in the line. -/
def LineLayout.spaces (l : LineLayout) : ℕ :=
  (l.shapeds.map ShapedText.spaces).sum

/-- `LineLayout::find`. -/
def LineLayout.find (l : LineLayout) (o : ℕ) : Option ℕ := findRange l.ranges o

/-- `LineLayout::get`: `items().nth(index)`. -/
def LineLayout.get (l : LineLayout) (i : ℕ) : Option ParItem := l.itemsView.get? i

/-- The embedding level at a character offset. -/
def levelAt (levels : List ℕ) (i : ℕ) : ℕ := levels.getD i 0

/-- Length of the maximal prefix of `[s, e)` on which the embedding level
equals `lv`. The first argument is structural fuel, instantiated with `e - s`
so that the kernel can evaluate the definition. -/
def runLenAux (levels : List ℕ) (lv : ℕ) : ℕ → ℕ → ℕ
  | 0, _ => 0
  | fuel + 1, s => if levelAt levels s = lv then 1 + runLenAux levels lv fuel (s + 1) else 0

/-- Length of the maximal prefix of `[s, e)` on which the embedding level
equals the level at `s`. -/
def runLen (levels : List ℕ) (s e : ℕ) : ℕ :=
  runLenAux levels (levelAt levels s) (e - s) s

theorem runLen_pos (levels : List ℕ) (s e : ℕ) (h : s < e) : 0 < runLen levels s e := by
  unfold runLen
  have he : e - s = (e - s - 1) + 1 := by omega
  rw [he]
  unfold runLenAux
  simp

theorem runLen_le (levels : List ℕ) (s e : ℕ) : runLen levels s e ≤ e - s := by
  unfold runLen
  generalize levelAt levels s = lv
  generalize hf : e - s = fuel
  clear hf
  induction fuel generalizing s with
  | zero => simp [runLenAux]
  | succ n ih =>
    unfold runLenAux
    split
    · have := ih (s + 1)
      omega
    · omega

/-- The maximal constant-level subranges of `[fuel applied at s, e)`, with
structural fuel bounding the number of runs. -/
def logicalRunsAux (levels : List ℕ) : ℕ → ℕ → ℕ → List Rng
  | 0, _, _ => []
  | fuel + 1, s, e =>
    if s < e then
      Rng.mk s (s + runLen levels s e) :: logicalRunsAux levels fuel (s + runLen levels s e) e
    else []

/-- The maximal constant-level subranges of `[s, e)`, in logical order. Each
run advances `s` by at least one, so `e - s` is enough fuel. -/
def logicalRuns (levels : List ℕ) (s e : ℕ) : List Rng :=
  logicalRunsAux levels (e - s) s e

/-- Reverse every maximal consecutive block of elements satisfying `p`
(the accumulator holds the current block already reversed). -/
def revSecAux (p : α → Bool) (acc : List α) : List α → List α
  | [] => acc
  | r :: rest => if p r then revSecAux p (r :: acc) rest else acc ++ r :: revSecAux p [] rest

def reverseSections (p : α → Bool) (l : List α) : List α := revSecAux p [] l

/-- The highest embedding level among the runs. -/
def maxLevel (levels : List ℕ) (runs : List Rng) : ℕ :=
  (runs.map fun r => levelAt levels r.start).foldl max 0

/-- UAX 9 rule L2 at run granularity: from the highest level down to level 1,
reverse every contiguous sequence of runs at or above that level. -/
def reorderRuns (levels : List ℕ) (runs : List Rng) : List Rng :=
  (List.range (maxLevel levels runs)).foldr
    (fun lv rs => reverseSections (fun r => decide (lv + 1 ≤ levelAt levels r.start)) rs) runs

/-- Modelled from the spec: `BidiInfo::visual_runs` decomposes a line range
into visual-order runs of constant level with the per-character levels
(spec sections 3 and 4.5; the L1 whitespace reset of the external BiDi crate
is omitted — it only re-levels trailing whitespace and the paragraph argument
is consulted only for it). -/
def visual_runs (bidi : BidiInfo) (_para : Rng) (line : Rng) : List ℕ × List Rng :=
  (bidi.levels, reorderRuns bidi.levels (logicalRuns bidi.levels line.start line.stop))

/-- `LineLayout::reordered`: the line's items in visual order. The bidi crate
dislikes empty lines, so an empty range yields no runs; each run is mapped to
the item indices it covers, forwards for LTR levels and backwards for RTL. -/
def LineLayout.reordered (l : LineLayout) : Option (List ParItem) := do
  let lr ←
    if l.range.isEmpty then pure (([] : List ℕ), ([] : List Rng))
    else do
      let para ← l.bidi.paragraphs.find? (fun p => p.containsB l.range.start)
      pure (visual_runs l.bidi para l.range)
  let levels := lr.1
  let runs := lr.2
  let idxLists ← runs.mapM (fun run => do
    let first_idx ← l.find run.start
    let last_idx ← l.find (run.stop - 1)
    let idxs := List.range' first_idx (last_idx + 1 - first_idx)
    pure (if levelAt levels run.start % 2 == 0 then idxs else idxs.reverse))
  idxLists.flatten.mapM l.get

/-- Horizontal alignment (spec section 6: start, center, end). -/
inductive Align where
  | left
  | center
  | right
deriving DecidableEq, Repr

/-- Modelled from the spec: `Align::resolve(remaining)` gives the leading
slack an aligned line content is shifted by (spec section 4.5). -/
def Align.resolve : Align → Length → Length
  | .left, _ => 0
  | .center, r => r / 2
  | .right, r => r

/-- Modelled from the spec: `Fractional::resolve(fr, remaining)` is
`v / fr * remaining`, and zero when `fr` is zero (spec section 4.5). -/
def Fractional.resolve (v fr remaining : Length) : Length :=
  if fr = 0 then 0 else v / fr * remaining

/-- The justification decision of `LineLayout::build` (par.rs lines 441-446):
justify is on, the line is not mandatory, its range stops before the end of
the text, and it has no fractional spacing. -/
def LineLayout.justifyCond (l : LineLayout) (justify : Bool) : Bool :=
  justify && !l.mandatory && decide (l.range.stop < l.bidi.text.length) &&
    decide (l.fr = 0)

/-- The `justification` stretch and the final `remaining` slack of
`LineLayout::build` (par.rs lines 436, 441-449). -/
def LineLayout.justification_remaining (l : LineLayout) (width : Length) (justify : Bool) :
    Length × Length :=
  let remaining := width - l.size.x
  if l.justifyCond justify then (remaining / (l.spaces : ℤ), 0)
  else (0, remaining)

/-- The placement of one item in the loop body of `LineLayout::build`: spacing
advances the offset, text and frames are positioned by alignment and merged. -/
def buildStep (l : LineLayout) (align : Align) (justification remaining : Length)
    (st : Length × Frame) (item : ParItem) : Length × Frame :=
  let offset := st.1
  let output := st.2
  let position := fun (fr : Frame) =>
    let x := offset + align.resolve remaining
    let y := l.baseline - fr.baselineOf
    (offset + fr.size.x, output.merge_frame x y fr)
  match item with
  | ParItem.absolute v => (offset + v, output)
  | ParItem.fractional v => (offset + Fractional.resolve v l.fr remaining, output)
  | ParItem.text shaped => position (shaped.build justification)
  | ParItem.frame fr => position fr

/-- `LineLayout::build`: build the line's frame of size `(width, size.y)`,
placing the items in visual order with alignment and justification. -/
def LineLayout.build (l : LineLayout) (width : Length) (align : Align) (justify : Bool) :
    Option Frame := do
  let size : Size := ⟨width, l.size.y⟩
  let jr := l.justification_remaining width justify
  let items ← l.reordered
  let out := items.foldl (buildStep l align jr.1 jr.2)
    (0, { Frame.new size with baseline := some l.baseline })
  pure out.2

/-- Modelled from the spec: `Length::fits` is the overflow test of the line
breaker — a line of width `x` fits a target `w` unless `x > w`
(spec section 4.4). -/
def fits (w x : Length) : Bool := decide (x ≤ w)

/-- The state of the greedy line breaker: committed lines, the current line's
start offset, and the last fitting attempt with its end offset. -/
structure BreakState where
  lines : List LineLayout
  start : ℕ
  last : Option (LineLayout × ℕ)
deriving DecidableEq, Repr

/-- One iteration of the loop of `break_into_lines` for the candidate
`(end, mandatory, hyphen)` (par.rs lines 547-572). -/
def breakStep (f : Font) (p : ParLayout) (width : Length) (st : BreakState)
    (cand : ℕ × Bool × Bool) : Option BreakState := do
  let cend := cand.1
  let mandatory := cand.2.1
  let hyphen := cand.2.2
  -- Compute the line and its size.
  let line ← p.line f ⟨st.start, cend⟩ mandatory hyphen
  -- If the line doesn't fit anymore, push the last fitting attempt and
  -- rebuild the line from its end.
  let rebuilt ←
    if !fits width line.size.x then
      match st.last with
      | some (lastLine, lastEnd) => do
        let line2 ← p.line f ⟨lastEnd, cend⟩ mandatory hyphen
        pure (line2, st.lines ++ [lastLine], lastEnd)
      | none => pure (line, st.lines, st.start)
    else pure (line, st.lines, st.start)
  let line := rebuilt.1
  let lines := rebuilt.2.1
  let start := rebuilt.2.2
  -- Finish the current line on a mandatory break or when it doesn't fit.
  if mandatory || !fits width line.size.x then
    pure ⟨lines ++ [line], cend, none⟩
  else
    pure ⟨lines, start, some (line, cend)⟩

/-- `break_into_lines`: fold the breakpoint candidates through `breakStep`,
then commit a leftover last fitting attempt. -/
def break_into_lines (f : Font) (p : ParLayout) (width : Length)
    (cands : List (ℕ × Bool × Bool)) : Option (List LineLayout) := do
  let st ← cands.foldlM (breakStep f p width) ⟨[], 0, none⟩
  pure
    (match st.last with
     | some (line, _) => st.lines ++ [line]
     | none => st.lines)

/-- The styles the paragraph core consumes (spec section 6). `hyphenate` is
`Smart<bool>`: `none` is `auto`. -/
structure Styles where
  lang : Option (List Char)
  justify : Bool
  hyphenate : Option Bool
  align : Align
deriving Repr

/-- `iso.as_bytes().try_into().ok()` for a `[u8; 2]` target: succeeds exactly
on two-character tags. -/
def tryIntoPair : List Char → Option (Char × Char)
  | [a, b] => some (a, b)
  | _ => none

/-- The language resolution of `breakpoints` (par.rs lines 586-593): only when
the hyphenate style (defaulting to justify) is on, look the LANG tag up with
the hyphenator. -/
def resolveLang {Lang : Type} (fromIso : Char × Char → Option Lang) (styles : Styles) :
    Option Lang :=
  if styles.hyphenate.getD styles.justify then
    styles.lang.bind (fun iso => (tryIntoPair iso).bind fromIso)
  else none

/-- One syllable step of the candidate fan-out of `breakpoints` (par.rs lines
607-614): advance `start` by the syllable, snap the suffix boundary to the
word end, and mask `mandatory` on hyphenated candidates. -/
def hyphenStep (cend suffix : ℕ) (mandatory : Bool) (st : List (ℕ × Bool × Bool) × ℕ)
    (syllable : List Char) : List (ℕ × Bool × Bool) × ℕ :=
  let s1 := st.2 + syllable.length
  let s2 := if s1 = suffix then cend else s1
  let hyphen := decide (s2 < cend)
  (st.1 ++ [(s2, mandatory && !hyphen, hyphen)], s2)

/-- The candidates a hyphenated word contributes: fold the syllables starting
from the previous base boundary `last`. -/
def hyphenCandidates (syllables : List (List Char)) (last cend : ℕ) (mandatory : Bool)
    (suffix : ℕ) : List (ℕ × Bool × Bool) :=
  (syllables.foldl (hyphenStep cend suffix mandatory) ([], last)).1

/-- The per-word body of the hyphenating branch of `breakpoints` (par.rs lines
599-615): trim the word to its alphabetic core; an empty core passes the base
candidate through, otherwise the hyphenator's syllables fan out. -/
def wordCandidates (hyphWord : List Char → List (List Char)) (text : List Char)
    (last cend : ℕ) (mandatory : Bool) : List (ℕ × Bool × Bool) :=
  let word := sliceCC text last cend
  let trimmed := trimEndMatches (fun ch => !isAlphabetic ch) word
  let suffix := last + trimmed.length
  if trimmed.isEmpty then [(cend, mandatory, false)]
  else hyphenCandidates (hyphWord trimmed) last cend mandatory suffix

/-- The hyphenating branch of `breakpoints`: flat-map the words between
successive base opportunities, threading the previous boundary. -/
def hyphenatedStream (hyphWord : List Char → List (List Char)) (base : List (ℕ × Bool))
    (text : List Char) : List (ℕ × Bool × Bool) :=
  (base.foldl
    (fun (st : List (ℕ × Bool × Bool) × ℕ) (c : ℕ × Bool) =>
      (st.1 ++ wordCandidates hyphWord text st.2 c.1 c.2, c.1))
    ([], 0)).1

/-- `breakpoints`: all possible line break candidates `(end, mandatory,
hyphen)`. `base` is the stream of Unicode line break opportunities of the
external `LineBreakIterator`, `fromIso` and `hyphenate` the external
hyphenator's language lookup and syllable segmentation. -/
def breakpoints {Lang : Type} (fromIso : Char × Char → Option Lang)
    (hyphenate : Lang → List Char → List (List Char)) (base : List (ℕ × Bool))
    (text : List Char) (styles : Styles) : List (ℕ × Bool × Bool) :=
  match resolveLang fromIso styles with
  | some lg => hyphenatedStream (hyphenate lg) base text
  | none => base.map (fun c => (c.1, c.2, false))

/-- Modelled from the spec: the base Unicode line break stream (UAX 14, as
produced by the external `LineBreakIterator`), for the character repertoire
this development uses (letters, ASCII spaces, newlines). LB2 forbids a break
at the start of text — in particular the empty text yields no candidate at
all — LB4/LB5 force a break after a newline, LB18 allows one after a space
run, and LB3 forces one at the end of text. -/
def lineBreaks (t : List Char) : List (ℕ × Bool) :=
  if t.length = 0 then []
  else
    ((List.range' 1 (t.length - 1)).filterMap (fun i =>
      if t.getD (i - 1) ' ' = '\n' then some (i, true)
      else if t.getD (i - 1) ' ' = ' ' ∧ t.getD i ' ' ≠ ' ' then some (i, false)
      else none)) ++ [(t.length, true)]

/-- The paragraph width decision of `stack_lines` (par.rs lines 634-639):
start from the region width; when the region does not expand horizontally and
no line has fractional spacing, shrink to the widest line (`max` of an empty
iterator defaulting to zero). -/
def stack_lines_width (expandX : Bool) (regionWidth : Length)
    (lines : List LineLayout) : Length :=
  if ¬ expandX = true ∧ ∀ l ∈ lines, l.fr = 0 then
    ((lines.map fun l => l.size.x).max?).getD 0
  else regionWidth

/-- `stack_lines`, restricted to the parts in scope here: the width decision
and building every line with that width. The vertical pagination across
regions (leading, region advancing) belongs to the external region machinery
and does not influence the build width. -/
def stack_lines (lines : List LineLayout) (expandX : Bool) (regionWidth : Length)
    (styles : Styles) : Option (List Frame) :=
  let width := stack_lines_width expandX regionWidth lines
  lines.mapM (fun l => l.build width styles.align styles.justify)

/-! ### Concrete fixtures used by witnesses and counterexamples -/

instance : Inhabited LineLayout :=
  ⟨⟨⟨[], [], []⟩, ⟨0, 0⟩, none, [], none, [], ⟨0, 0⟩, 0, 0, false⟩⟩

/-- A concrete font: every character one unit wide, ascent 8, descent 2. -/
def Fc : Font := { ascent := 8, descent := 2, charWidth := fun _ => 1, hyphenWidth := 1 }

/-- A one-run paragraph layout over uniformly LTR text, as `ParLayout::new`
produces it for a single text child of constant BiDi level. -/
def mkParOneRun (t : List Char) : ParLayout :=
  { bidi := { text := t, levels := t.map fun _ => 0, paragraphs := [⟨0, t.length⟩] }
    items := [ParItem.text (shape Fc t)]
    ranges := [⟨0, t.length⟩] }

/-- Styles with justification on and everything else off. -/
def stylesJustify : Styles := { lang := none, justify := true, hyphenate := none, align := Align.left }

/-- Styles with justification and hyphenation off. -/
def stylesPlain : Styles := { lang := none, justify := false, hyphenate := none, align := Align.left }

/-- A hyphenator language lookup recognizing no language. -/
def isoNone : Char × Char → Option Unit := fun _ => none

/-- A trivial hyphenator segmentation. -/
def hyphTrivial : Unit → List Char → List (List Char) := fun _ w => [w]

/-! ### C6: the width decision of stack_lines -/

/-- The width decision in the words of the specification: the region width if
the region's horizontal expand flag is set or some line has nonzero fractional
weight; otherwise the maximum of the lines' measured widths, and zero when
there are no lines. -/
def stack_lines_width_fromSpec (expandX : Bool) (regionWidth : Length)
    (lines : List LineLayout) : Length :=
  if expandX = true ∨ ∃ l ∈ lines, l.fr ≠ 0 then regionWidth
  else
    match lines with
    | [] => 0
    | x :: xs => xs.foldl (fun acc l => max acc l.size.x) x.size.x

/-- C6: in `stack_lines`, the paragraph width used for building every line
frame is the region width if the region's horizontal expand flag is set or
some line has nonzero fractional weight; otherwise it is the maximum of the
lines' measured widths, and zero when there are no lines. -/
theorem stack_lines_width_correct (expandX : Bool) (regionWidth : Length)
    (lines : List LineLayout) :
    stack_lines_width expandX regionWidth lines =
      stack_lines_width_fromSpec expandX regionWidth lines := by
  unfold stack_lines_width stack_lines_width_fromSpec
  by_cases hc : expandX = true ∨ ∃ l ∈ lines, l.fr ≠ 0
  · rw [if_pos hc, if_neg]
    rintro ⟨h1, h2⟩
    rcases hc with hc | ⟨l, hl, hfr⟩
    · exact h1 (by simp [hc])
    · exact hfr (h2 l hl)
  · push_neg at hc
    rw [if_pos ⟨hc.1, hc.2⟩, if_neg (by
      rintro (h | ⟨l, hl, hfr⟩)
      · exact hc.1 h
      · exact hfr (hc.2 l hl))]
    cases lines with
    | nil => simp [List.max?]
    | cons x xs => simp [List.max?, List.foldl_map]

/-! ### C3: the justification decision of LineLayout::build -/

/-- The justification decision in the words of the specification: inter-space
justification applies exactly when justify is on, the line is not
mandatory-terminated, the line's range end is strictly before the end of the
flattened text, and the fractional weight is zero; then the per-space stretch
is `remaining / spaces()` and `remaining` becomes zero, otherwise there is no
stretch. -/
def justification_fromSpec (l : LineLayout) (width : Length) (justify : Bool) :
    Length × Length :=
  if justify = true ∧ l.mandatory = false ∧ l.range.stop < l.bidi.text.length ∧ l.fr = 0
  then ((width - l.size.x) / (l.spaces : ℤ), 0)
  else (0, width - l.size.x)

theorem justifyCond_iff (l : LineLayout) (justify : Bool) :
    l.justifyCond justify = true ↔
      justify = true ∧ l.mandatory = false ∧ l.range.stop < l.bidi.text.length ∧ l.fr = 0 := by
  simp [LineLayout.justifyCond, Bool.not_eq_true', and_assoc]

/-- C3: `LineLayout::build` applies inter-space justification if and only if
justify is on, the line is not mandatory-terminated, the line's range end is
strictly before the end of the flattened text, and the line's fractional
weight is zero; when applied, the per-space stretch is `remaining / spaces()`
and `remaining` becomes zero, otherwise no stretch is applied. -/
theorem build_justification_correct (l : LineLayout) (width : Length) (justify : Bool) :
    l.justification_remaining width justify = justification_fromSpec l width justify := by
  unfold LineLayout.justification_remaining justification_fromSpec
  by_cases hc : justify = true ∧ l.mandatory = false ∧ l.range.stop < l.bidi.text.length ∧ l.fr = 0
  · rw [if_pos ((justifyCond_iff l justify).mpr hc), if_pos hc]
  · rw [if_neg (fun hh => hc ((justifyCond_iff l justify).mp hh)), if_neg hc]

/-! ### C9: size and baseline of the built frame -/

theorem buildStep_preserves (l : LineLayout) (align : Align) (justification remaining : Length)
    (st : Length × Frame) (item : ParItem) :
    (buildStep l align justification remaining st item).2.size = st.2.size ∧
      (buildStep l align justification remaining st item).2.baseline = st.2.baseline := by
  cases item <;> simp [buildStep, Frame.merge_frame]

theorem buildFold_preserves (l : LineLayout) (align : Align)
    (justification remaining : Length) :
    ∀ (items : List ParItem) (st : Length × Frame),
      (items.foldl (buildStep l align justification remaining) st).2.size = st.2.size ∧
        (items.foldl (buildStep l align justification remaining) st).2.baseline =
          st.2.baseline := by
  intro items
  induction items with
  | nil => intro st; exact ⟨rfl, rfl⟩
  | cons item rest ih =>
    intro st
    have h1 := buildStep_preserves l align justification remaining st item
    have h2 := ih (buildStep l align justification remaining st item)
    exact ⟨h2.1.trans h1.1, h2.2.trans h1.2⟩

/-- C9: for every line and every target width, the frame returned by
`LineLayout::build` has size exactly `(width, line.size.y)` and baseline equal
to `line.baseline`, regardless of alignment and justification settings. -/
theorem build_frame_size_baseline (l : LineLayout) (width : Length) (align : Align)
    (justify : Bool) (fr : Frame) (h : l.build width align justify = some fr) :
    fr.size = ⟨width, l.size.y⟩ ∧ fr.baseline = some l.baseline := by
  unfold LineLayout.build at h
  cases hre : l.reordered with
  | none => rw [hre] at h; simp at h
  | some items =>
    rw [hre] at h
    simp only [Option.pure_def, Option.bind_eq_bind, Option.some_bind, Option.some_inj] at h
    subst h
    have := buildFold_preserves l align (l.justification_remaining width justify).1
      (l.justification_remaining width justify).2 items
      (0, { Frame.new ⟨width, l.size.y⟩ with baseline := some l.baseline })
    exact ⟨this.1, this.2⟩

/-- A concrete line: "hello world" cut at the break candidate at offset 6
(the stored range is trimmed to `[0, 5)`). -/
def wLineHW : LineLayout :=
  ((mkParOneRun "hello world".data).line Fc ⟨0, 6⟩ false false).getD default

/-- A concrete built frame for `wLineHW`. -/
def wFrameHW : Frame := (wLineHW.build 7 Align.center true).getD (Frame.new ⟨0, 0⟩)

theorem build_frame_size_baseline_witness :
    wLineHW.build 7 Align.center true = some wFrameHW ∧
      wFrameHW.size = ⟨7, wLineHW.size.y⟩ ∧ wFrameHW.baseline = some wLineHW.baseline := by
  have h : wLineHW.build 7 Align.center true = some wFrameHW := by decide
  exact ⟨h, build_frame_size_baseline wLineHW 7 Align.center true wFrameHW h⟩

/-! ### C10: the justification divisor can be zero -/

/-- C10: through the public pipeline (breakpoint generation, line breaking,
then building with justify on), a line can satisfy the justification condition
of `LineLayout::build` while containing no ASCII-space cluster, so the stretch
computation `remaining / spaces()` divides by zero: here the first line "aa"
of "aa bb cc" at target width 2. (`Length` models `f64` exactly on the values
reached; the claim is about the divisor `spaces()` being zero at the division
site in `justification_remaining`, which this theorem exhibits.) -/
theorem justification_division_by_zero_reachable :
    ((break_into_lines Fc (mkParOneRun "aa bb cc".data) 2
        (breakpoints isoNone hyphTrivial (lineBreaks "aa bb cc".data) "aa bb cc".data
          stylesJustify)).bind List.head?).map
      (fun l => (l.justifyCond stylesJustify.justify, l.spaces)) = some (true, 0) := by
  decide

/-! ### C2: the breaker's behavior on overflow with a saved candidate -/

/-- Worker for the overflow-with-saved-candidate case of `breakStep`, shared
by the breaker's loop invariant. -/
theorem breakStep_overflow_go (f : Font) (p : ParLayout) (width : Length) (st : BreakState)
    (cand : ℕ × Bool × Bool) (line0 prev reb : LineLayout) (prevEnd : ℕ)
    (h0 : p.line f ⟨st.start, cand.1⟩ cand.2.1 cand.2.2 = some line0)
    (hof : fits width line0.size.x = false)
    (hlast : st.last = some (prev, prevEnd))
    (hreb : p.line f ⟨prevEnd, cand.1⟩ cand.2.1 cand.2.2 = some reb) :
    breakStep f p width st cand =
      some (if cand.2.1 = true ∨ fits width reb.size.x = false
        then ⟨st.lines ++ [prev, reb], cand.1, none⟩
        else ⟨st.lines ++ [prev], prevEnd, some (reb, cand.1)⟩) := by
  unfold breakStep
  simp only [h0, hlast, hreb, hof, Bool.not_false, Option.pure_def, Option.bind_eq_bind,
    Option.some_bind, if_true]
  by_cases hc : cand.2.1 = true ∨ fits width reb.size.x = false
  · rw [if_pos hc]
    rcases hc with hc | hc <;> simp [hc]
  · have hc' := hc
    push_neg at hc'
    rw [if_neg hc]
    simp only [Bool.not_eq_true, Bool.not_eq_false] at hc'
    simp [hc'.1, hc'.2]

/-- C2 (amended): when a candidate line overflows the target width and a saved
last-fitting candidate exists, the saved line is committed, `start` is set to
its end and the line is rebuilt over the new range — but the rebuilt line is
committed at this step only when the break is mandatory or the rebuilt line
still overflows; otherwise it becomes the new saved candidate. -/
theorem breakStep_overflow (f : Font) (p : ParLayout) (width : Length) (st : BreakState)
    (cand : ℕ × Bool × Bool) (line0 prev reb : LineLayout) (prevEnd : ℕ)
    (h0 : p.line f ⟨st.start, cand.1⟩ cand.2.1 cand.2.2 = some line0)
    (hof : fits width line0.size.x = false)
    (hlast : st.last = some (prev, prevEnd))
    (hreb : p.line f ⟨prevEnd, cand.1⟩ cand.2.1 cand.2.2 = some reb) :
    breakStep f p width st cand =
      some (if cand.2.1 = true ∨ fits width reb.size.x = false
        then ⟨st.lines ++ [prev, reb], cand.1, none⟩
        else ⟨st.lines ++ [prev], prevEnd, some (reb, cand.1)⟩) :=
  breakStep_overflow_go f p width st cand line0 prev reb prevEnd h0 hof hlast hreb

/-- The paragraph "aaa bbb ccc" with every character one unit wide. -/
def parC2 : ParLayout := mkParOneRun "aaa bbb ccc".data

/-- The saved fitting line "aaa" (built over 0..4, trimmed to 0..3). -/
def wPrevC2 : LineLayout := (parC2.line Fc ⟨0, 4⟩ false false).getD default

/-- The candidate line over 0..8 that overflows width 3. -/
def wLine0C2 : LineLayout := (parC2.line Fc ⟨0, 8⟩ false false).getD default

/-- The rebuilt line over 4..8 (trimmed to 4..7), which fits width 3. -/
def wRebC2 : LineLayout := (parC2.line Fc ⟨4, 8⟩ false false).getD default

/-- C2 counterexample: at width 3 with text "aaa bbb ccc", the state after the
first candidate saves the fitting line "aaa"; at the next candidate (offset 8,
not mandatory) the tentative line overflows and a saved candidate exists, yet
after the step the only committed line is the saved one — the rebuilt line
(range 4..7) fits and is stashed as the new saved candidate instead of being
committed unconditionally. -/
theorem breakStep_rebuilt_not_committed :
    breakStep Fc parC2 3 ⟨[], 0, none⟩ (4, false, false) =
      some ⟨[], 0, some (wPrevC2, 4)⟩ ∧
    (parC2.line Fc ⟨0, 8⟩ false false).map (fun l => fits 3 l.size.x) = some false ∧
    (breakStep Fc parC2 3 ⟨[], 0, some (wPrevC2, 4)⟩ (8, false, false)).map
      (fun s => (s.lines.map fun l => l.range, s.last.map fun q => (q.1.range, q.2))) =
      some ([⟨0, 3⟩], some (⟨4, 7⟩, 8)) :=
  ⟨by decide, by decide, by decide⟩

theorem breakStep_overflow_witness :
    breakStep Fc parC2 3 ⟨[], 0, some (wPrevC2, 4)⟩ (8, false, false) =
      some (if (8, false, false).2.1 = true ∨ fits 3 wRebC2.size.x = false
        then ⟨[] ++ [wPrevC2, wRebC2], 8, none⟩
        else ⟨[] ++ [wPrevC2], 4, some (wRebC2, 8)⟩) :=
  breakStep_overflow Fc parC2 3 ⟨[], 0, some (wPrevC2, 4)⟩ (8, false, false)
    wLine0C2 wPrevC2 wRebC2 4 (by decide) (by decide) rfl (by decide)

/-! ### C4: shape of hyphenation candidates -/

/-- Partial sums `start + l₁, start + l₁ + l₂, …` — the syllable boundaries of
a word starting at `start`. -/
def partialSums (start : ℕ) : List ℕ → List ℕ
  | [] => []
  | n :: ns => (start + n) :: partialSums (start + n) ns

/-- Any element a fold of `hyphenStep` adds satisfies a predicate that all of
the accumulator satisfies and every emitted candidate satisfies. -/
theorem hyphenStep_fold_all (P : ℕ × Bool × Bool → Prop) (cend suffix : ℕ) (mandatory : Bool)
    (hP : ∀ o m h, P (o, m && !h, h)) :
    ∀ (syls : List (List Char)) (st : List (ℕ × Bool × Bool) × ℕ),
      (∀ t ∈ st.1, P t) → ∀ t ∈ (syls.foldl (hyphenStep cend suffix mandatory) st).1, P t := by
  intro syls
  induction syls with
  | nil => intro st h; exact h
  | cons s rest ih =>
    intro st h
    refine ih _ ?_
    intro t ht
    simp only [hyphenStep, List.mem_append, List.mem_singleton] at ht
    rcases ht with ht | ht
    · exact h t ht
    · subst ht; exact hP _ _ _

/-- A hyphenated candidate never carries the mandatory flag. -/
theorem hyphenCandidates_flags (syls : List (List Char)) (last cend suffix : ℕ)
    (mandatory : Bool) :
    ∀ t ∈ hyphenCandidates syls last cend mandatory suffix, t.2.2 = true → t.2.1 = false := by
  have := hyphenStep_fold_all (fun t => t.2.2 = true → t.2.1 = false) cend suffix mandatory
    (by intro o m h; cases h <;> simp) syls ([], last) (by simp)
  exact this

/-- No candidate of any breakpoint stream carries both flags. -/
theorem breakpoints_flags {Lang : Type} (fromIso : Char × Char → Option Lang)
    (hyphenate : Lang → List Char → List (List Char)) (base : List (ℕ × Bool))
    (text : List Char) (styles : Styles) :
    ∀ t ∈ breakpoints fromIso hyphenate base text styles, t.2.2 = true → t.2.1 = false := by
  unfold breakpoints
  cases resolveLang fromIso styles with
  | none =>
    intro t ht
    simp only [List.mem_map] at ht
    obtain ⟨c, _, rfl⟩ := ht
    intro h; cases h
  | some lg =>
    unfold hyphenatedStream
    generalize hst : (([], 0) : List (ℕ × Bool × Bool) × ℕ) = st
    have hacc : ∀ t ∈ st.1, t.2.2 = true → t.2.1 = false := by subst hst; simp
    clear hst
    induction base generalizing st with
    | nil => exact hacc
    | cons c rest ih =>
      refine ih _ ?_
      intro t ht
      simp only [List.mem_append] at ht
      rcases ht with ht | ht
      · exact hacc t ht
      · unfold wordCandidates at ht
        simp only [] at ht
        split at ht
        · simp only [List.mem_singleton] at ht
          subst ht; intro htt; cases htt
        · exact hyphenCandidates_flags _ _ _ _ _ t ht

theorem hyphenCandidates_fold_spec (cend suffix : ℕ) (mandatory : Bool) :
    ∀ (syls : List (List Char)) (acc : List (ℕ × Bool × Bool)) (start : ℕ),
      (∀ s ∈ syls, s.length ≠ 0) → (syls.map List.length).sum = suffix - start →
      start < suffix → suffix ≤ cend →
      syls.foldl (hyphenStep cend suffix mandatory) (acc, start) =
        (acc ++ ((partialSums start (syls.map List.length)).dropLast).map
            (fun o => (o, false, true)) ++ [(cend, mandatory, false)], cend) := by
  intro syls
  induction syls with
  | nil =>
    intro acc start _ hsum hlt _
    simp at hsum
    omega
  | cons s rest ih =>
    intro acc start hne hsum hlt hsc
    cases hrest : rest with
    | nil =>
      subst hrest
      have hlen : s.length ≠ 0 := hne s (by simp)
      simp only [List.map_cons, List.map_nil, List.sum_cons, List.sum_nil, Nat.add_zero] at hsum
      have hs1 : start + s.length = suffix := by omega
      simp only [List.foldl_cons, List.foldl_nil, hyphenStep, hs1, if_pos rfl,
        partialSums, List.map_cons, List.map_nil]
      have : ¬ cend < cend := lt_irrefl cend
      simp [this, partialSums]
    | cons r rs =>
      subst hrest
      have hlen : s.length ≠ 0 := hne s (by simp)
      have hrsum : ((r :: rs).map List.length).sum ≠ 0 := by
        have : r.length ≠ 0 := hne r (by simp)
        simp only [List.map_cons, List.sum_cons]
        omega
      have hsum' : (s.length + ((r :: rs).map List.length).sum) = suffix - start := by
        simpa using hsum
      have hs1lt : start + s.length < suffix := by omega
      have hs1ne : start + s.length ≠ suffix := by omega
      have hstep : hyphenStep cend suffix mandatory (acc, start) s =
          (acc ++ [(start + s.length, false, true)], start + s.length) := by
        simp only [hyphenStep, if_neg hs1ne]
        have hlt2 : start + s.length < cend := by omega
        simp [hlt2]
      rw [List.foldl_cons, hstep,
        ih (acc ++ [(start + s.length, false, true)]) (start + s.length)
          (fun x hx => hne x (by simp [hx])) (by omega) hs1lt hsc]
      have hpsne : partialSums (start + s.length) (List.map List.length (r :: rs)) ≠ [] := by
        simp [partialSums]
      have hps : partialSums start (List.map List.length (s :: r :: rs)) =
          (start + s.length) :: partialSums (start + s.length) (List.map List.length (r :: rs)) := by
        simp [partialSums]
      rw [hps, List.dropLast_cons_of_ne_nil hpsne]
      simp

/-- C4: when hyphenation is active for a word (syllables are nonempty and
concatenate to the trimmed word, which ends at `suffix` within the base range
ending at `cend`), the breakpoints stream yields each internal syllable
boundary as `(offset, false, true)`, still yields the word's base boundary as
`(cend, mandatory, false)`, and no candidate of any breakpoint stream ever
carries both the hyphen flag and the mandatory flag. -/
theorem hyphen_candidates_correct {Lang : Type} (fromIso : Char × Char → Option Lang)
    (hyphenate : Lang → List Char → List (List Char)) (base : List (ℕ × Bool))
    (text : List Char) (styles : Styles) (syllables : List (List Char))
    (last cend suffix : ℕ) (mandatory : Bool)
    (hne : ∀ s ∈ syllables, s.length ≠ 0)
    (hsum : (syllables.map List.length).sum = suffix - last)
    (hlt : last < suffix) (hsc : suffix ≤ cend) :
    hyphenCandidates syllables last cend mandatory suffix =
      ((partialSums last (syllables.map List.length)).dropLast).map
          (fun o => (o, false, true)) ++ [(cend, mandatory, false)] ∧
      (∀ t ∈ breakpoints fromIso hyphenate base text styles,
        t.2.2 = true → t.2.1 = false) := by
  constructor
  · have := hyphenCandidates_fold_spec cend suffix mandatory syllables [] last hne hsum hlt hsc
    unfold hyphenCandidates
    rw [this]
    simp
  · exact breakpoints_flags fromIso hyphenate base text styles

theorem hyphen_candidates_correct_witness :
    hyphenCandidates ["accept".data, "able".data] 0 10 true 10 =
      ((partialSums 0 (["accept".data, "able".data].map List.length)).dropLast).map
          (fun o => (o, false, true)) ++ [(10, true, false)] ∧
      (∀ t ∈ breakpoints isoNone hyphTrivial [(10, true)] "acceptable".data stylesPlain,
        t.2.2 = true → t.2.1 = false) :=
  hyphen_candidates_correct isoNone hyphTrivial [(10, true)] "acceptable".data stylesPlain
    ["accept".data, "able".data] 0 10 10 true (by decide) (by decide) (by decide) (by decide)

/-! ### C7: the hyphenation gate -/

/-- The gate in the words of the specification: the hyphenate style resolves
to true — the auto setting resolving to the justify style — and the LANG style
holds a two-letter tag the hyphenator recognizes as a supported ISO-639
code. -/
def hyphenationActive_fromSpec {Lang : Type} (fromIso : Char × Char → Option Lang)
    (styles : Styles) : Prop :=
  (match styles.hyphenate with
   | some b => b = true
   | none => styles.justify = true) ∧
  ∃ c1 c2 lg, styles.lang = some [c1, c2] ∧ fromIso (c1, c2) = some lg

/-- C7: hyphenation candidates are generated if and only if the hyphenate
style (auto resolving to justify) and a recognized language are both present:
the language resolution succeeds exactly under the spec's gate, a resolved
language selects the hyphenating branch, and otherwise the base stream is
passed through unchanged (only extended with a false hyphen flag). -/
theorem breakpoints_gate {Lang : Type} (fromIso : Char × Char → Option Lang)
    (hyphenate : Lang → List Char → List (List Char)) (base : List (ℕ × Bool))
    (text : List Char) (styles : Styles) :
    ((resolveLang fromIso styles).isSome = true ↔
        hyphenationActive_fromSpec fromIso styles) ∧
    (∀ lg, resolveLang fromIso styles = some lg →
        breakpoints fromIso hyphenate base text styles =
          hyphenatedStream (hyphenate lg) base text) ∧
    (resolveLang fromIso styles = none →
        breakpoints fromIso hyphenate base text styles =
          base.map fun c => (c.1, c.2, false)) := by
  refine ⟨?_, ?_, ?_⟩
  · unfold resolveLang hyphenationActive_fromSpec
    by_cases hg : styles.hyphenate.getD styles.justify = true
    · rw [if_pos hg]
      constructor
      · intro hsome
        cases hlang : styles.lang with
        | none => rw [hlang] at hsome; simp at hsome
        | some iso =>
          rw [hlang] at hsome
          simp only [Option.some_bind] at hsome
          match hiso : tryIntoPair iso with
          | none => rw [hiso] at hsome; simp at hsome
          | some (c1, c2) =>
            rw [hiso] at hsome
            simp only [Option.some_bind, Option.isSome_iff_exists] at hsome
            obtain ⟨lg, hlg⟩ := hsome
            refine ⟨?_, c1, c2, lg, ?_, hlg⟩
            · cases hh : styles.hyphenate with
              | none => rw [hh] at hg; simpa using hg
              | some b => rw [hh] at hg; simpa using hg
            · cases iso with
              | nil => simp [tryIntoPair] at hiso
              | cons a t =>
                cases t with
                | nil => simp [tryIntoPair] at hiso
                | cons b t2 =>
                  cases t2 with
                  | nil =>
                    simp only [tryIntoPair, Option.some_inj, Prod.mk.injEq] at hiso
                    rw [hiso.1, hiso.2]
                  | cons x t3 => simp [tryIntoPair] at hiso
      · rintro ⟨_, c1, c2, lg, hlang, hlg⟩
        rw [hlang]
        simp [tryIntoPair, hlg]
    · rw [if_neg hg]
      simp only [Option.isSome_none, Bool.false_eq_true, false_iff]
      rintro ⟨hres, _⟩
      apply hg
      cases hh : styles.hyphenate with
      | none => rw [hh] at hres; simpa using hres
      | some b => rw [hh] at hres; simp only [Option.getD_some]; rw [hh] at *; simpa using hres
  · intro lg hlg
    unfold breakpoints
    rw [hlg]
  · intro hlg
    unfold breakpoints
    rw [hlg]

/-- A language lookup recognizing exactly the tag "en". -/
def isoEN : Char × Char → Option Unit :=
  fun p => if p = ('e', 'n') then some () else none

/-- Styles with LANG "en", justification on and hyphenation on auto. -/
def stylesEN : Styles :=
  { lang := some ['e', 'n'], justify := true, hyphenate := none, align := Align.left }

theorem breakpoints_gate_witness :
    ((resolveLang isoEN stylesEN).isSome = true ↔
        hyphenationActive_fromSpec isoEN stylesEN) ∧
    (∀ lg, resolveLang isoEN stylesEN = some lg →
        breakpoints isoEN hyphTrivial [(10, true)] "acceptable".data stylesEN =
          hyphenatedStream (hyphTrivial lg) [(10, true)] "acceptable".data) ∧
    (resolveLang isoEN stylesEN = none →
        breakpoints isoEN hyphTrivial [(10, true)] "acceptable".data stylesEN =
          [(10, true)].map fun c => (c.1, c.2, false)) :=
  breakpoints_gate isoEN hyphTrivial [(10, true)] "acceptable".data stylesEN

/-! ### Infrastructure: contiguous range covers, slices and trimming -/

/-- `coversB rs c d`: the ranges `rs` are nonempty and contiguously cover
`[c, d)` in order (invariant 1 of the spec's data model). -/
def coversB : List Rng → ℕ → ℕ → Bool
  | [], c, d => c == d
  | r :: rest, c, d => r.start == c && decide (c < r.stop) && coversB rest r.stop d

theorem coversB_find : ∀ (rs : List Rng) (c d o : ℕ), coversB rs c d = true → c ≤ o → o < d →
    ∃ k, findRange rs o = some k ∧ k < rs.length ∧
      (rs.getD k ⟨0, 0⟩).start ≤ o ∧ o < (rs.getD k ⟨0, 0⟩).stop := by
  intro rs
  induction rs with
  | nil =>
    intro c d o hc hco hod
    simp only [coversB, beq_iff_eq] at hc
    omega
  | cons r rest ih =>
    intro c d o hc hco hod
    simp only [coversB, Bool.and_eq_true, beq_iff_eq, decide_eq_true_eq] at hc
    obtain ⟨⟨hstart, hlt⟩, hrest⟩ := hc
    by_cases ho : o < r.stop
    · have hcont : r.containsB o = true := by
        simp only [Rng.containsB, decide_eq_true_eq]
        omega
      exact ⟨0, by simp [findRange, hcont], by simp, by simp; omega, by simpa using ho⟩
    · obtain ⟨k, hk, hklen, hks, hke⟩ := ih r.stop d o hrest (by omega) hod
      have hcont : r.containsB o = false := by
        simp only [Rng.containsB, decide_eq_false_iff_not]
        omega
      exact ⟨k + 1, by simp [findRange, hcont, hk], by simpa using hklen,
        by simpa using hks, by simpa using hke⟩

theorem sliceCC_length (t : List Char) (s e : ℕ) (h1 : s ≤ e) (h2 : e ≤ t.length) :
    (sliceCC t s e).length = e - s := by
  simp only [sliceCC, List.length_drop, List.length_take]
  omega

theorem sliceCC_getD (t : List Char) (s e j : ℕ) (hj : j < e - s) (h2 : e ≤ t.length) :
    (sliceCC t s e).getD j ' ' = t.getD (s + j) ' ' := by
  have hl : (sliceCC t s e).length = e - s := sliceCC_length t s e (by omega) h2
  have hj2 : s + j < t.length := by omega
  rw [List.getD_eq_getElem _ _ (by omega), List.getD_eq_getElem _ _ hj2]
  simp only [sliceCC]
  rw [List.getElem_drop, List.getElem_take]

theorem trimEndLen_le (t : List Char) : trimEndLen t ≤ t.length := by
  unfold trimEndLen
  have h := (List.dropWhile_sublist (p := isWhitespace) (l := t.reverse)).length_le
  simpa using h

theorem trimEndLen_ws (t : List Char) (j : ℕ) (h1 : trimEndLen t ≤ j) (h2 : j < t.length) :
    isWhitespace (t.getD j ' ') = true := by
  have happ : t.reverse.takeWhile isWhitespace ++ t.reverse.dropWhile isWhitespace =
      t.reverse := List.takeWhile_append_dropWhile isWhitespace t.reverse
  have htotal : (t.reverse.takeWhile isWhitespace).length +
      (t.reverse.dropWhile isWhitespace).length = t.length := by
    rw [← List.length_append, happ, List.length_reverse]
  have h1' : (t.reverse.dropWhile isWhitespace).length ≤ j := h1
  have hlt : t.length - 1 - j < (t.reverse.takeWhile isWhitespace).length := by omega
  have hrl2 : t.length - 1 - j < t.reverse.length := by
    rw [List.length_reverse]; omega
  have hg1 : t.reverse[t.length - 1 - j] = t[j] := by
    rw [List.getElem_reverse]
    congr 1
    omega
  have hg2 : t.reverse[t.length - 1 - j] =
      (t.reverse.takeWhile isWhitespace)[t.length - 1 - j] := by
    have h3 := List.getElem_of_eq happ.symm hrl2
    rw [h3, List.getElem_append_left]
  have hmem : (t.reverse.takeWhile isWhitespace)[t.length - 1 - j] ∈
      t.reverse.takeWhile isWhitespace := List.getElem_mem _
  have hws := List.mem_takeWhile_imp hmem
  rw [List.getD_eq_getElem _ _ h2, ← hg1, hg2]
  exact hws

/-- All characters of `t` in `[a, b)` are whitespace. -/
def wsOnly (t : List Char) (a b : ℕ) : Prop :=
  ∀ o, a ≤ o → o < b → isWhitespace (t.getD o ' ') = true

/-- The whitespace-trimming step of `ParLayout::line` moves the line's end
offset backwards, never before the line's start, and only over whitespace. -/
theorem lineTrimLast_stop (p : ParLayout) (f : Font) (r : Rng) (hyphen : Bool)
    (last_idx : ℕ) (items0 : List ParItem)
    (hbase : (p.ranges.getD last_idx ⟨0, 0⟩).start ≤ r.stop - 1)
    (hse : r.start < r.stop) (hen : r.stop ≤ p.bidi.text.length) :
    r.start ≤ (lineTrimLast p f r hyphen last_idx items0).2.2 ∧
      (lineTrimLast p f r hyphen last_idx items0).2.2 ≤ r.stop ∧
      wsOnly p.bidi.text (lineTrimLast p f r hyphen last_idx items0).2.2 r.stop := by
  have hvac : ∀ c : ℕ, c = r.stop →
      r.start ≤ c ∧ c ≤ r.stop ∧ wsOnly p.bidi.text c r.stop := by
    intro c hc
    subst hc
    exact ⟨le_of_lt hse, le_refl _, fun o h1 h2 => absurd h2 (by omega)⟩
  unfold lineTrimLast
  split
  case h_2 => exact hvac _ rfl
  case h_1 shaped heq =>
    simp only []
    have hs1 : r.start ≤ max r.start (p.ranges.getD last_idx ⟨0, 0⟩).start :=
      le_max_left _ _
    have hs2 : max r.start (p.ranges.getD last_idx ⟨0, 0⟩).start ≤ r.stop - 1 :=
      max_le (by omega) hbase
    set start := max r.start (p.ranges.getD last_idx ⟨0, 0⟩).start with hstart_def
    have hstart_lt : start < r.stop := by omega
    have hslen : (sliceCC p.bidi.text start r.stop).length = r.stop - start :=
      sliceCC_length _ _ _ (le_of_lt hstart_lt) hen
    have htle : trimEndLen (sliceCC p.bidi.text start r.stop) ≤
        (sliceCC p.bidi.text start r.stop).length := trimEndLen_le _
    have h1 : r.start ≤ start + trimEndLen (sliceCC p.bidi.text start r.stop) := by omega
    have h2 : start + trimEndLen (sliceCC p.bidi.text start r.stop) ≤ r.stop := by omega
    have hws : wsOnly p.bidi.text
        (start + trimEndLen (sliceCC p.bidi.text start r.stop)) r.stop := by
      intro o ho1 ho2
      have hj : o - start < (sliceCC p.bidi.text start r.stop).length := by omega
      have hwsj := trimEndLen_ws (sliceCC p.bidi.text start r.stop) (o - start)
        (by omega) hj
      rw [sliceCC_getD p.bidi.text start r.stop (o - start) (by omega) hen] at hwsj
      rwa [Nat.add_sub_cancel' (by omega : start ≤ o)] at hwsj
    split
    · exact ⟨h1, h2, hws⟩
    · exact hvac _ rfl

/-- `ParLayout::line` on a well-covered paragraph and a nonempty range
succeeds; the produced line keeps the range's start and moves its end backwards
only over whitespace. -/
theorem line_range (p : ParLayout) (f : Font) (s e : ℕ) (m hy : Bool)
    (hwf : coversB p.ranges 0 p.bidi.text.length = true)
    (hse : s < e) (hen : e ≤ p.bidi.text.length) :
    ∃ l, p.line f ⟨s, e⟩ m hy = some l ∧ l.range.start = s ∧ s ≤ l.range.stop ∧
      l.range.stop ≤ e ∧ wsOnly p.bidi.text l.range.stop e ∧ l.mandatory = m := by
  obtain ⟨li, hli, hlilen, hlis, hlie⟩ :=
    coversB_find p.ranges 0 _ (e - 1) hwf (Nat.zero_le _) (by omega)
  obtain ⟨fi, hfi, _, _, _⟩ :=
    coversB_find p.ranges 0 _ s hwf (Nat.zero_le _) (by omega)
  have hne : (Rng.mk s e).isEmpty = false := by
    simp only [Rng.isEmpty, decide_eq_false_iff_not]
    omega
  have hstep := lineTrimLast_stop p f ⟨s, e⟩ hy li
    ((p.items.drop fi).take (li + 1 - fi)) hlis hse hen
  unfold ParLayout.line ParLayout.find
  rw [show (Rng.mk s e).stop - 1 = e - 1 from rfl, hli]
  simp only [hne, Bool.false_eq_true, if_false, hfi, Option.pure_def,
    Option.bind_eq_bind, Option.some_bind]
  exact ⟨_, rfl, rfl, hstep.1, hstep.2.1, hstep.2.2, rfl⟩

/-! ### C1: the committed line ranges -/

/-- `breakStep` when there is no saved candidate or the tentative line fits:
commit on a mandatory break or overflow, save otherwise. -/
theorem breakStep_eq (f : Font) (p : ParLayout) (width : Length) (st : BreakState)
    (c : ℕ × Bool × Bool) (line0 : LineLayout)
    (h0 : p.line f ⟨st.start, c.1⟩ c.2.1 c.2.2 = some line0)
    (hcase : st.last = none ∨ fits width line0.size.x = true) :
    breakStep f p width st c =
      some (if c.2.1 = true ∨ fits width line0.size.x = false
        then ⟨st.lines ++ [line0], c.1, none⟩
        else ⟨st.lines, st.start, some (line0, c.1)⟩) := by
  unfold breakStep
  simp only [h0, Option.pure_def, Option.bind_eq_bind, Option.some_bind]
  cases hfit : fits width line0.size.x with
  | false =>
    have hl : st.last = none := by
      rcases hcase with hl | hf
      · exact hl
      · rw [hf] at hfit; cases hfit
    simp [hl]
  | true => cases hm : c.2.1 <;> simp

/-- Successive committed lines: the next line starts at or after the previous
line's (trimmed) end, and only whitespace lies between. -/
def gapOK (t : List Char) (a b : LineLayout) : Prop :=
  a.range.stop ≤ b.range.start ∧ wsOnly t a.range.stop b.range.start

/-- The first committed line starts at offset 0. -/
def headStart0 (ls : List LineLayout) : Prop :=
  ∀ hd, ls.head? = some hd → hd.range.start = 0

/-- The final committed line ends at or before `upto` with only whitespace
after its range. -/
def tailOK (t : List Char) (ls : List LineLayout) (upto : ℕ) : Prop :=
  ∀ ll, ls.getLast? = some ll → ll.range.stop ≤ upto ∧ wsOnly t ll.range.stop upto

/-- The invariant of the greedy breaker's loop: the committed lines (with the
saved candidate appended, when present) chain with whitespace-only gaps from
offset 0, and the loop's `start` marker sits at the last consumed boundary. -/
def BreakInv (t : List Char) (st : BreakState) : Prop :=
  match st.last with
  | some (l, lend) =>
    List.Chain' (gapOK t) (st.lines ++ [l]) ∧ headStart0 (st.lines ++ [l]) ∧
      st.start = l.range.start ∧ l.range.stop ≤ lend ∧ wsOnly t l.range.stop lend
  | none =>
    List.Chain' (gapOK t) st.lines ∧ headStart0 st.lines ∧
      (st.lines = [] → st.start = 0) ∧ tailOK t st.lines st.start

/-- The boundary the breaker has consumed up to. -/
def endOf (st : BreakState) : ℕ :=
  match st.last with
  | some pr => pr.2
  | none => st.start

theorem chain_append_one {t : List Char} {ls : List LineLayout} {a : LineLayout}
    (hc : List.Chain' (gapOK t) ls)
    (hlink : ∀ x, ls.getLast? = some x → gapOK t x a) :
    List.Chain' (gapOK t) (ls ++ [a]) := by
  refine List.chain'_append.mpr ⟨hc, List.chain'_singleton _, ?_⟩
  intro x hx y hy
  simp only [List.head?_cons, Option.mem_def, Option.some_inj] at hy
  subst hy
  exact hlink x hx

theorem headStart0_append_one {ls : List LineLayout} {a : LineLayout}
    (h : headStart0 ls) (h0 : ls = [] → a.range.start = 0) :
    headStart0 (ls ++ [a]) := by
  intro hd hhd
  cases ls with
  | nil =>
    simp only [List.nil_append, List.head?_cons, Option.some_inj] at hhd
    subst hhd
    exact h0 rfl
  | cons x xs =>
    simp only [List.cons_append, List.head?_cons, Option.some_inj] at hhd
    rw [← hhd]
    exact h x rfl

theorem headStart0_append_elim {ls : List LineLayout} {a : LineLayout}
    (h : headStart0 (ls ++ [a])) :
    headStart0 ls ∧ (ls = [] → a.range.start = 0) := by
  constructor
  · intro hd hhd
    cases ls with
    | nil => cases hhd
    | cons x xs =>
      simp only [List.head?_cons, Option.some_inj] at hhd
      rw [← hhd]
      exact h x rfl
  · intro hnil
    subst hnil
    exact h a rfl

/-- A committed state satisfies the invariant. -/
theorem BreakInv_commit {t : List Char} {lines : List LineLayout} {lnew : LineLayout}
    {cend : ℕ} (hch : List.Chain' (gapOK t) lines) (hh0 : headStart0 lines)
    (hemp : lines = [] → lnew.range.start = 0)
    (hlink : ∀ x, lines.getLast? = some x → gapOK t x lnew)
    (hle : lnew.range.stop ≤ cend) (hws : wsOnly t lnew.range.stop cend) :
    BreakInv t ⟨lines ++ [lnew], cend, none⟩ := by
  refine ⟨chain_append_one hch hlink, headStart0_append_one hh0 hemp, ?_, ?_⟩
  · intro habs
    exact absurd habs (by simp)
  · intro ll hll
    rw [List.getLast?_concat] at hll
    injection hll with hll
    subst hll
    exact ⟨hle, hws⟩

/-- A stashed state satisfies the invariant. -/
theorem BreakInv_stash {t : List Char} {lines : List LineLayout} {lnew : LineLayout}
    {cend sstart : ℕ} (hch : List.Chain' (gapOK t) lines) (hh0 : headStart0 lines)
    (hemp : lines = [] → lnew.range.start = 0)
    (hlink : ∀ x, lines.getLast? = some x → gapOK t x lnew)
    (hstart : sstart = lnew.range.start)
    (hle : lnew.range.stop ≤ cend) (hws : wsOnly t lnew.range.stop cend) :
    BreakInv t ⟨lines, sstart, some (lnew, cend)⟩ :=
  ⟨chain_append_one hch hlink, headStart0_append_one hh0 hemp, hstart, hle, hws⟩

/-- The loop of `break_into_lines` preserves the chain invariant, consuming
strictly ascending candidates within the text. -/
theorem breakFold_inv (f : Font) (p : ParLayout) (width : Length)
    (hwf : coversB p.ranges 0 p.bidi.text.length = true) :
    ∀ (cands : List (ℕ × Bool × Bool)) (st : BreakState),
      BreakInv p.bidi.text st →
      (∀ c ∈ cands, st.start < c.1 ∧ c.1 ≤ p.bidi.text.length) →
      (∀ pr : LineLayout × ℕ, st.last = some pr → ∀ c ∈ cands, pr.2 < c.1) →
      List.Pairwise (fun a b : ℕ × Bool × Bool => a.1 < b.1) cands →
      ∃ st', cands.foldlM (breakStep f p width) st = some st' ∧
        BreakInv p.bidi.text st' ∧ (cands = [] → st' = st) ∧
        (∀ cl, cands.getLast? = some cl → endOf st' = cl.1) := by
  intro cands
  induction cands with
  | nil =>
    intro st hinv _ _ _
    exact ⟨st, rfl, hinv, fun _ => rfl, fun cl hcl => by cases hcl⟩
  | cons c rest ih =>
    intro st hinv hcands hlastc hpw
    obtain ⟨hc1lt, hc1le⟩ := hcands c (List.mem_cons_self _ _)
    obtain ⟨hrest_lt, hpw'⟩ := List.pairwise_cons.mp hpw
    obtain ⟨line0, h0, hl0s, hl0le, hl0e, hl0ws, _⟩ :=
      line_range p f st.start c.1 c.2.1 c.2.2 hwf hc1lt hc1le
    -- determine the state after this candidate together with its invariant
    suffices hstep : ∃ st1, breakStep f p width st c = some st1 ∧
        BreakInv p.bidi.text st1 ∧ endOf st1 = c.1 ∧ c.1 ≤ st1.start + (c.1 - st1.start) ∧
        (st1.start = c.1 ∨ st1.start = st.start ∨
          (∃ pr : LineLayout × ℕ, st.last = some pr ∧ st1.start = pr.2)) ∧
        (∀ pr1 : LineLayout × ℕ, st1.last = some pr1 → pr1.2 = c.1) by
      obtain ⟨st1, hs1, hinv1, hend1, _, hstart1, hlast1⟩ := hstep
      have hcands' : ∀ c' ∈ rest, st1.start < c'.1 ∧ c'.1 ≤ p.bidi.text.length := by
        intro c' hc'
        refine ⟨?_, (hcands c' (List.mem_cons_of_mem _ hc')).2⟩
        have hcc' := hrest_lt c' hc'
        rcases hstart1 with h | h | ⟨pr, hpr, h⟩
        · omega
        · have := (hcands c' (List.mem_cons_of_mem _ hc')).1
          omega
        · have := hlastc pr hpr c' (List.mem_cons_of_mem _ hc')
          omega
      have hlastc' : ∀ pr : LineLayout × ℕ, st1.last = some pr → ∀ c' ∈ rest, pr.2 < c'.1 := by
        intro pr hpr c' hc'
        rw [hlast1 pr hpr]
        exact hrest_lt c' hc'
      obtain ⟨st', hfold', hinv', hnil', hlast'⟩ := ih st1 hinv1 hcands' hlastc' hpw'
      refine ⟨st', ?_, hinv', ?_, ?_⟩
      · rw [List.foldlM_cons, hs1]
        exact hfold'
      · intro habs
        cases habs
      · intro cl hcl
        cases rest with
        | nil =>
          simp only [List.getLast?_singleton, Option.some_inj] at hcl
          rw [hnil' rfl, ← hcl]
          exact hend1
        | cons r rs =>
          rw [List.getLast?_cons_cons] at hcl
          exact hlast' cl hcl
    -- now the case analysis on overflow and the saved candidate
    cases hfit : fits width line0.size.x with
    | true =>
      -- the tentative line fits: commit on mandatory, save otherwise
      have hstep := breakStep_eq f p width st c line0 h0 (Or.inr hfit)
      -- common pieces of the invariant
      have hcore : List.Chain' (gapOK p.bidi.text) st.lines ∧ headStart0 st.lines ∧
          (st.lines = [] → line0.range.start = 0) ∧
          (∀ x, st.lines.getLast? = some x → gapOK p.bidi.text x line0) := by
        cases hlastv : st.last with
        | none =>
          rw [BreakInv, hlastv] at hinv
          obtain ⟨hch, hh0, hemp, htail⟩ := hinv
          refine ⟨hch, hh0, fun hn => by rw [hl0s, hemp hn], ?_⟩
          intro x hx
          have := htail x hx
          exact ⟨by omega, by rw [hl0s]; exact this.2⟩
        | some pr =>
          obtain ⟨lprev, lend⟩ := pr
          rw [BreakInv, hlastv] at hinv
          obtain ⟨hch, hh0, hsst, _, _⟩ := hinv
          obtain ⟨hch1, _, hlink⟩ := List.chain'_append.mp hch
          obtain ⟨hh01, hh0emp⟩ := headStart0_append_elim hh0
          refine ⟨hch1, hh01, fun hn => by rw [hl0s, hsst, hh0emp hn], ?_⟩
          intro x hx
          have hxl := hlink x (by simpa using hx) lprev (by simp)
          refine ⟨by rw [hl0s, hsst]; exact hxl.1, ?_⟩
          rw [hl0s, hsst]
          exact hxl.2
      obtain ⟨hch1, hh01, hemp1, hlink1⟩ := hcore
      cases hm : c.2.1 with
      | true =>
        refine ⟨⟨st.lines ++ [line0], c.1, none⟩, ?_, ?_, rfl, by omega, Or.inl rfl,
          fun pr1 hpr1 => by cases hpr1⟩
        · rw [hstep, if_pos (Or.inl hm)]
        · exact BreakInv_commit hch1 hh01 hemp1 hlink1 hl0e hl0ws
      | false =>
        refine ⟨⟨st.lines, st.start, some (line0, c.1)⟩, ?_, ?_, rfl, by omega,
          Or.inr (Or.inl rfl), ?_⟩
        · rw [hstep, if_neg (by
            rintro (h | h)
            · rw [hm] at h; cases h
            · rw [hfit] at h; cases h)]
        · exact BreakInv_stash hch1 hh01 hemp1 hlink1 hl0s.symm hl0e hl0ws
        · intro pr1 hpr1
          injection hpr1 with hpr1
          rw [← hpr1]
    | false =>
      cases hlastv : st.last with
      | none =>
        -- overflow without a saved candidate: commit the overlong line
        have hstep := breakStep_eq f p width st c line0 h0 (Or.inl hlastv)
        rw [BreakInv, hlastv] at hinv
        obtain ⟨hch, hh0, hemp, htail⟩ := hinv
        refine ⟨⟨st.lines ++ [line0], c.1, none⟩, ?_, ?_, rfl, by omega, Or.inl rfl,
          fun pr1 hpr1 => by cases hpr1⟩
        · rw [hstep, if_pos (Or.inr hfit)]
        · refine BreakInv_commit hch hh0 (fun hn => by rw [hl0s, hemp hn]) ?_ hl0e hl0ws
          intro x hx
          have := htail x hx
          exact ⟨by omega, by rw [hl0s]; exact this.2⟩
      | some pr =>
        obtain ⟨lprev, lend⟩ := pr
        -- overflow with a saved candidate: commit it and rebuild from its end
        have hlend_lt : lend < c.1 := hlastc (lprev, lend) hlastv c (List.mem_cons_self _ _)
        obtain ⟨line1, h1, hl1s, hl1le, hl1e, hl1ws, _⟩ :=
          line_range p f lend c.1 c.2.1 c.2.2 hwf hlend_lt hc1le
        have hstep := breakStep_overflow_go f p width st c line0 lprev line1 lend
          h0 hfit hlastv h1
        rw [BreakInv, hlastv] at hinv
        obtain ⟨hch, hh0, hsst, hple, hpws⟩ := hinv
        have hlink2 : ∀ x, (st.lines ++ [lprev]).getLast? = some x →
            gapOK p.bidi.text x line1 := by
          intro x hx
          rw [List.getLast?_concat] at hx
          injection hx with hx
          subst hx
          exact ⟨by omega, by rw [hl1s]; exact hpws⟩
        have hh0emp : st.lines ++ [lprev] = [] → line1.range.start = 0 := by
          intro habs
          exact absurd habs (by simp)
        by_cases hd : c.2.1 = true ∨ fits width line1.size.x = false
        · refine ⟨⟨st.lines ++ [lprev, line1], c.1, none⟩, ?_, ?_, rfl, by omega,
            Or.inl rfl, fun pr1 hpr1 => by cases hpr1⟩
          · rw [hstep, if_pos hd]
          · have := BreakInv_commit hch hh0 hh0emp hlink2 hl1e hl1ws
            have happ : (st.lines ++ [lprev]) ++ [line1] = st.lines ++ [lprev, line1] := by
              simp
            rwa [happ] at this
        · refine ⟨⟨st.lines ++ [lprev], lend, some (line1, c.1)⟩, ?_, ?_, rfl, by omega,
            Or.inr (Or.inr ⟨(lprev, lend), rfl, rfl⟩), ?_⟩
          · rw [hstep, if_neg hd]
          · exact BreakInv_stash hch hh0
              (fun hn => absurd hn (by simp)) hlink2 hl1s.symm hl1e hl1ws
          · intro pr1 hpr1
            injection hpr1 with hpr1
            rw [← hpr1]

/-- C1 (amended): over a contiguously covered paragraph and strictly ascending
breakpoint candidates ending at the text length, `break_into_lines` succeeds
and emits a nonempty sequence of lines whose ranges are ordered and disjoint:
the first line starts at 0, every next line starts at or after the previous
line's trimmed end with only whitespace in between, and the final line ends at
or before the text end with only whitespace after it. -/
theorem break_into_lines_ranges (f : Font) (p : ParLayout) (width : Length)
    (cands : List (ℕ × Bool × Bool))
    (hwf : coversB p.ranges 0 p.bidi.text.length = true)
    (hcands : ∀ c ∈ cands, 0 < c.1 ∧ c.1 ≤ p.bidi.text.length)
    (hpw : List.Pairwise (fun a b : ℕ × Bool × Bool => a.1 < b.1) cands)
    (cl : ℕ × Bool × Bool) (hcl : cands.getLast? = some cl)
    (hcln : cl.1 = p.bidi.text.length) :
    ∃ lines, break_into_lines f p width cands = some lines ∧ lines ≠ [] ∧
      headStart0 lines ∧ List.Chain' (gapOK p.bidi.text) lines ∧
      tailOK p.bidi.text lines p.bidi.text.length := by
  have hinit : BreakInv p.bidi.text ⟨[], 0, none⟩ := by
    refine ⟨List.chain'_nil, ?_, fun _ => rfl, ?_⟩
    · intro hd h
      cases h
    · intro ll h
      cases h
  obtain ⟨st', hfold, hinv, _, hlast⟩ := breakFold_inv f p width hwf cands ⟨[], 0, none⟩
    hinit
    (fun c hc => ⟨(hcands c hc).1, (hcands c hc).2⟩)
    (fun pr hpr => by cases hpr)
    hpw
  have hend := hlast cl hcl
  have hclpos : 0 < cl.1 := by
    have hmem : cl ∈ cands := by
      cases cands with
      | nil => cases hcl
      | cons a l =>
        exact List.mem_of_mem_getLast? hcl
    exact (hcands cl hmem).1
  unfold break_into_lines
  rw [hfold]
  simp only [Option.pure_def, Option.bind_eq_bind, Option.some_bind]
  cases hstl : st'.last with
  | some pr =>
    obtain ⟨l, lend⟩ := pr
    rw [BreakInv, hstl] at hinv
    obtain ⟨hch, hh0, _, hle, hws⟩ := hinv
    have hlendn : lend = p.bidi.text.length := by
      unfold endOf at hend
      rw [hstl] at hend
      simp only [] at hend
      omega
    refine ⟨st'.lines ++ [l], rfl, by simp, hh0, hch, ?_⟩
    intro ll hll
    rw [List.getLast?_concat] at hll
    injection hll with hll
    subst hll
    rw [← hlendn]
    exact ⟨hle, hws⟩
  | none =>
    rw [BreakInv, hstl] at hinv
    obtain ⟨hch, hh0, hemp, htail⟩ := hinv
    have hstn : st'.start = p.bidi.text.length := by
      unfold endOf at hend
      rw [hstl] at hend
      simp only [] at hend
      omega
    refine ⟨st'.lines, rfl, ?_, hh0, hch, ?_⟩
    · intro habs
      have := hemp habs
      omega
    · rw [← hstn]
      exact htail

/-- The frozen claim's notion of an exact partition: the stored line ranges
concatenate, in order, to `[0, n)` with no overlap and no gap. -/
def rangesPartitionExactly (lines : List LineLayout) (n : ℕ) : Bool :=
  coversB (lines.map fun l => l.range) 0 n

/-- C1 counterexample: "hello world" at width 5 through the public pipeline
emits the stored ranges `[0, 5)` and `[6, 11)` — the trimmed trailing space at
offset 5 belongs to neither, so the concatenation of stored ranges is not
exactly `[0, 11)`. -/
theorem break_ranges_gap :
    (break_into_lines Fc (mkParOneRun "hello world".data) 5
        (breakpoints isoNone hyphTrivial (lineBreaks "hello world".data)
          "hello world".data stylesPlain)).map
      (fun ls => (ls.map fun l => l.range, rangesPartitionExactly ls 11)) =
      some ([⟨0, 5⟩, ⟨6, 11⟩], false) := by
  decide

theorem break_into_lines_ranges_witness :
    ∃ lines, break_into_lines Fc (mkParOneRun "hello world".data) 5
        (breakpoints isoNone hyphTrivial (lineBreaks "hello world".data)
          "hello world".data stylesPlain) = some lines ∧ lines ≠ [] ∧
      headStart0 lines ∧
      List.Chain' (gapOK (mkParOneRun "hello world".data).bidi.text) lines ∧
      tailOK (mkParOneRun "hello world".data).bidi.text lines
        (mkParOneRun "hello world".data).bidi.text.length :=
  break_into_lines_ranges Fc (mkParOneRun "hello world".data) 5 _
    (by decide) (by decide) (by decide) (11, true, false) (by decide) (by decide)

/-! ### C5: the empty paragraph and empty lines -/

/-- The paragraph layout of the empty flattened text: no items, no ranges
(a text child expands into one item per BiDi level group, and the empty text
has none). -/
def parEmpty : ParLayout :=
  { bidi := { text := [], levels := [], paragraphs := [] }, items := [], ranges := [] }

/-- C5 counterexample: for the empty flattened text the pipeline emits zero
lines, not one — the base UAX-14 stream has no candidate for empty text, and
`ParLayout::line` cannot build a line over the empty paragraph either (its
`find` unwrap has nothing to find), so one shaped empty line is unreachable. -/
theorem empty_text_zero_lines :
    (break_into_lines Fc parEmpty 5
        (breakpoints isoNone hyphTrivial (lineBreaks []) [] stylesPlain)).map
      List.length = some 0 ∧
    parEmpty.line Fc ⟨0, 0⟩ true false = none :=
  ⟨by decide, by decide⟩

/-- C5 (amended): the empty flattened text produces zero lines; an empty line
arising at a trailing mandatory break within nonempty text is shaped from the
empty string, so its size equals the size of shaping "" (the font metrics give
the line height): here "a\n\n" yields the lines `[0,1)` and the empty line
`[2,2)` with exactly the empty-shaping size. -/
theorem empty_line_from_shaping_empty :
    (break_into_lines Fc parEmpty 5
        (breakpoints isoNone hyphTrivial (lineBreaks []) [] stylesPlain)).map
      List.length = some 0 ∧
    (break_into_lines Fc (mkParOneRun "a\n\n".data) 100
        (breakpoints isoNone hyphTrivial (lineBreaks "a\n\n".data) "a\n\n".data
          stylesPlain)).map
      (fun ls => ls.map fun l => (l.range, l.size)) =
      some [(⟨0, 1⟩, (shape Fc "a".data).size), (⟨2, 2⟩, (shape Fc []).size)] :=
  ⟨by decide, by decide⟩

/-! ### C8: visual order is a permutation of logical order -/

theorem runLenAux_all (levels : List ℕ) (lv : ℕ) :
    ∀ (fuel s i : ℕ), s ≤ i → i < s + runLenAux levels lv fuel s →
      levelAt levels i = lv := by
  intro fuel
  induction fuel with
  | zero =>
    intro s i h1 h2
    simp [runLenAux] at h2
    omega
  | succ m ih =>
    intro s i h1 h2
    unfold runLenAux at h2
    split at h2
    · rcases Nat.eq_or_lt_of_le h1 with h | h
      · subst h
        assumption
      · exact ih (s + 1) i h (by omega)
    · omega

theorem runLenAux_stop (levels : List ℕ) (lv : ℕ) :
    ∀ (fuel s : ℕ), runLenAux levels lv fuel s < fuel →
      levelAt levels (s + runLenAux levels lv fuel s) ≠ lv := by
  intro fuel
  induction fuel with
  | zero =>
    intro s h
    omega
  | succ m ih =>
    intro s h
    unfold runLenAux at h ⊢
    split
    · rename_i hlv
      rw [if_pos hlv] at h
      have := ih (s + 1) (by omega)
      have harr : s + (1 + runLenAux levels lv m (s + 1)) =
          s + 1 + runLenAux levels lv m (s + 1) := by omega
      rw [harr]
      exact this
    · rename_i hlv
      simpa using hlv

theorem runLen_all (levels : List ℕ) (s e i : ℕ) (h1 : s ≤ i)
    (h2 : i < s + runLen levels s e) : levelAt levels i = levelAt levels s :=
  runLenAux_all levels (levelAt levels s) (e - s) s i h1 h2

theorem runLen_stop (levels : List ℕ) (s e : ℕ) (h : s + runLen levels s e < e) :
    levelAt levels (s + runLen levels s e) ≠ levelAt levels s := by
  have : runLen levels s e < e - s := by omega
  exact runLenAux_stop levels (levelAt levels s) (e - s) s this

/-- `logicalRunsAux` with enough fuel contiguously covers `[s, e)`. -/
theorem logicalRunsAux_covers (levels : List ℕ) :
    ∀ (fuel s e : ℕ), e - s ≤ fuel → s ≤ e →
      coversB (logicalRunsAux levels fuel s e) s e = true := by
  intro fuel
  induction fuel with
  | zero =>
    intro s e h1 h2
    have : s = e := by omega
    subst this
    simp [logicalRunsAux, coversB]
  | succ m ih =>
    intro s e h1 h2
    unfold logicalRunsAux
    split
    · rename_i hse
      have hpos := runLen_pos levels s e hse
      have hle := runLen_le levels s e
      simp only [coversB, Bool.and_eq_true, beq_iff_eq, decide_eq_true_eq]
      exact ⟨⟨by simp, by omega⟩, ih (s + runLen levels s e) e (by omega) (by omega)⟩
    · rename_i hse
      have : s = e := by omega
      subst this
      simp [coversB]

theorem logicalRuns_covers (levels : List ℕ) (s e : ℕ) (h : s ≤ e) :
    coversB (logicalRuns levels s e) s e = true :=
  logicalRunsAux_covers levels (e - s) s e (le_refl _) h

/-- Every run produced by `logicalRunsAux` has constant level and ends at a
level change (or at `e`). -/
theorem logicalRunsAux_levels (levels : List ℕ) :
    ∀ (fuel s e : ℕ), ∀ r ∈ logicalRunsAux levels fuel s e,
      (∀ i, r.start ≤ i → i < r.stop → levelAt levels i = levelAt levels r.start) ∧
        (r.stop < e → levelAt levels r.stop ≠ levelAt levels r.start) := by
  intro fuel
  induction fuel with
  | zero =>
    intro s e r hr
    simp [logicalRunsAux] at hr
  | succ m ih =>
    intro s e r hr
    unfold logicalRunsAux at hr
    split at hr
    · rename_i hse
      rcases List.mem_cons.mp hr with hr | hr
      · subst hr
        refine ⟨fun i h1 h2 => runLen_all levels s e i h1 h2, fun hlt => ?_⟩
        exact runLen_stop levels s e hlt
      · exact ih _ e r hr
    · simp at hr

/-- Membership in a contiguous cover bounds the member. -/
theorem coversB_mem : ∀ (rs : List Rng) (c d : ℕ), coversB rs c d = true →
    ∀ r ∈ rs, c ≤ r.start ∧ r.start < r.stop ∧ r.stop ≤ d := by
  intro rs
  induction rs with
  | nil =>
    intro c d _ r hr
    cases hr
  | cons x rest ih =>
    intro c d hc r hr
    simp only [coversB, Bool.and_eq_true, beq_iff_eq, decide_eq_true_eq] at hc
    obtain ⟨⟨hxs, hxlt⟩, hrest⟩ := hc
    have hd : x.stop ≤ d := by
      cases rest with
      | nil =>
        simp only [coversB, beq_iff_eq] at hrest
        omega
      | cons y ys =>
        have := ih x.stop d hrest y (by simp)
        omega
    rcases List.mem_cons.mp hr with hr | hr
    · subst hr
      exact ⟨by omega, by omega, hd⟩
    · have := ih x.stop d hrest r hr
      omega

/-- The found index is monotone in the offset over a contiguous cover. -/
theorem findRange_mono : ∀ (rs : List Rng) (c d o o' : ℕ), coversB rs c d = true →
    c ≤ o → o ≤ o' → o' < d →
    (findRange rs o).getD 0 ≤ (findRange rs o').getD 0 := by
  intro rs
  induction rs with
  | nil =>
    intro c d o o' hc h1 h2 h3
    simp only [coversB, beq_iff_eq] at hc
    omega
  | cons r rest ih =>
    intro c d o o' hc h1 h2 h3
    simp only [coversB, Bool.and_eq_true, beq_iff_eq, decide_eq_true_eq] at hc
    obtain ⟨⟨hrs, hrlt⟩, hrest⟩ := hc
    by_cases ho : o < r.stop
    · have hco : r.containsB o = true := by
        simp only [Rng.containsB, decide_eq_true_eq]
        omega
      simp [findRange, hco]
    · have hco : r.containsB o = false := by
        simp only [Rng.containsB, decide_eq_false_iff_not]
        omega
      have hco' : r.containsB o' = false := by
        simp only [Rng.containsB, decide_eq_false_iff_not]
        omega
      simp only [findRange, hco, hco', Bool.false_eq_true, if_false]
      have := ih r.stop d o o' hrest (by omega) h2 h3
      obtain ⟨k, hk, _, _, _⟩ := coversB_find rest r.stop d o hrest (by omega) (by omega)
      obtain ⟨k', hk', _, _, _⟩ := coversB_find rest r.stop d o' hrest (by omega) h3
      rw [hk, hk'] at this ⊢
      simpa using this

/-- Over a contiguous cover, the found index of adjacent offsets either stays
or steps by one. -/
theorem findRange_adj : ∀ (rs : List Rng) (c d o : ℕ), coversB rs c d = true →
    c ≤ o → o + 1 < d →
    findRange rs (o + 1) = findRange rs o ∨
      ∃ k, findRange rs o = some k ∧ findRange rs (o + 1) = some (k + 1) := by
  intro rs
  induction rs with
  | nil =>
    intro c d o hc h1 h2
    simp only [coversB, beq_iff_eq] at hc
    omega
  | cons r rest ih =>
    intro c d o hc h1 h2
    simp only [coversB, Bool.and_eq_true, beq_iff_eq, decide_eq_true_eq] at hc
    obtain ⟨⟨hrs, hrlt⟩, hrest⟩ := hc
    by_cases ho1 : o + 1 < r.stop
    · have hco : r.containsB o = true := by
        simp only [Rng.containsB, decide_eq_true_eq]; omega
      have hco1 : r.containsB (o + 1) = true := by
        simp only [Rng.containsB, decide_eq_true_eq]; omega
      left
      simp [findRange, hco, hco1]
    · by_cases ho2 : o < r.stop
      · -- o is in r, o + 1 is the start of the next range
        have hco : r.containsB o = true := by
          simp only [Rng.containsB, decide_eq_true_eq]; omega
        have hco1 : r.containsB (o + 1) = false := by
          simp only [Rng.containsB, decide_eq_false_iff_not]; omega
        right
        refine ⟨0, by simp [findRange, hco], ?_⟩
        have hstop : o + 1 = r.stop := by omega
        cases hrest2 : rest with
        | nil =>
          rw [hrest2] at hrest
          simp only [coversB, beq_iff_eq] at hrest
          omega
        | cons y ys =>
          rw [hrest2] at hrest
          simp only [coversB, Bool.and_eq_true, beq_iff_eq, decide_eq_true_eq] at hrest
          obtain ⟨⟨hys, hylt⟩, _⟩ := hrest
          have hcy : y.containsB (o + 1) = true := by
            simp only [Rng.containsB, decide_eq_true_eq]
            omega
          simp [findRange, hco1, hrest2, hcy]
      · -- both in the tail
        have hco : r.containsB o = false := by
          simp only [Rng.containsB, decide_eq_false_iff_not]; omega
        have hco1 : r.containsB (o + 1) = false := by
          simp only [Rng.containsB, decide_eq_false_iff_not]; omega
        rcases ih r.stop d o hrest (by omega) h2 with h | ⟨k, hk1, hk2⟩
        · left
          simp [findRange, hco, hco1, h]
        · right
          exact ⟨k + 1, by simp [findRange, hco, hk1], by simp [findRange, hco1, hk2]⟩

theorem revSecAux_perm (p : α → Bool) :
    ∀ (l acc : List α), (revSecAux p acc l).Perm (acc ++ l) := by
  intro l
  induction l with
  | nil =>
    intro acc
    simp [revSecAux]
  | cons r rest ih =>
    intro acc
    unfold revSecAux
    split
    · exact (ih (r :: acc)).trans List.perm_middle.symm
    · refine (List.Perm.append_left acc ?_)
      exact List.Perm.cons r (by simpa using ih [])

theorem reverseSections_perm (p : α → Bool) (l : List α) :
    (reverseSections p l).Perm l := by
  simpa using revSecAux_perm p l []

theorem reorderRuns_perm (levels : List ℕ) (runs : List Rng) :
    (reorderRuns levels runs).Perm runs := by
  unfold reorderRuns
  generalize List.range (maxLevel levels runs) = ls
  induction ls with
  | nil => simp
  | cons lv rest ih =>
    simp only [List.foldr_cons]
    exact (reverseSections_perm _ _).trans ih

theorem mapM_eq_some_map {α β : Type} (f : α → Option β) (g : α → β) :
    ∀ l : List α, (∀ a ∈ l, f a = some (g a)) → l.mapM f = some (l.map g) := by
  intro l
  induction l with
  | nil => intro _; rfl
  | cons a rest ih =>
    intro h
    rw [List.mapM_cons, h a (by simp), ih (fun x hx => h x (by simp [hx]))]
    rfl

theorem map_getD_range'_aux {α : Type} (d : α) :
    ∀ (n s : ℕ) (L : List α), s + n ≤ L.length →
      (List.range' s n).map (fun i => L.getD i d) = (L.drop s).take n := by
  intro n
  induction n with
  | zero => intro s L _; simp
  | succ m ih =>
    intro s L h
    rw [List.range'_succ]
    simp only [List.map_cons]
    rw [ih (s + 1) L (by omega)]
    have hdrop : L.drop s = L.getD s d :: L.drop (s + 1) := by
      rw [List.getD_eq_getElem _ _ (by omega)]
      exact List.drop_eq_getElem_cons (by omega)
    rw [hdrop]
    rfl

theorem map_getD_range' {α : Type} (L : List α) (d : α) :
    (List.range' 0 L.length).map (fun i => L.getD i d) = L := by
  rw [map_getD_range'_aux d L.length 0 L (by omega)]
  simp

/-- The embedding levels are constant on each item range restricted to the
line `[s, e)`. -/
def constLevels (levels : List ℕ) (ranges : List Rng) (s e : ℕ) : Bool :=
  ranges.all (fun r =>
    (List.range' (max r.start s) (min r.stop e - max r.start s)).all
      (fun o => levelAt levels o == levelAt levels (max r.start s)))

theorem constLevels_eq (levels : List ℕ) (ranges : List Rng) (s e : ℕ)
    (h : constLevels levels ranges s e = true) (r : Rng) (hr : r ∈ ranges)
    (o o' : ℕ) (ho1 : r.start ≤ o) (ho2 : o < r.stop) (ho3 : s ≤ o) (ho4 : o < e)
    (ho1' : r.start ≤ o') (ho2' : o' < r.stop) (ho3' : s ≤ o') (ho4' : o' < e) :
    levelAt levels o = levelAt levels o' := by
  unfold constLevels at h
  rw [List.all_eq_true] at h
  have hr' := h r hr
  rw [List.all_eq_true] at hr'
  have hmem : ∀ x : ℕ, max r.start s ≤ x → x < min r.stop e →
      x ∈ List.range' (max r.start s) (min r.stop e - max r.start s) := by
    intro x hx1 hx2
    rw [List.mem_range'_1]
    omega
  have h1 := hr' o (hmem o (by omega) (by omega))
  have h2 := hr' o' (hmem o' (by omega) (by omega))
  rw [beq_iff_eq] at h1 h2
  rw [h1, h2]

theorem perm_flatten {β : Type} {l₁ l₂ : List (List β)} (h : l₁.Perm l₂) :
    l₁.flatten.Perm l₂.flatten := by
  induction h with
  | nil => exact List.Perm.refl _
  | cons x _ ih =>
    simp only [List.flatten_cons]
    exact List.Perm.append_left x ih
  | swap x y l =>
    simp only [List.flatten_cons, ← List.append_assoc]
    exact List.Perm.append_right l.flatten (List.perm_append_comm)
  | trans _ _ ih1 ih2 => exact ih1.trans ih2

theorem flatten_map_perm {α β : Type} (g h : α → List β) :
    ∀ l : List α, (∀ a ∈ l, (g a).Perm (h a)) →
      ((l.map g).flatten).Perm ((l.map h).flatten) := by
  intro l
  induction l with
  | nil => intro _; exact List.Perm.refl _
  | cons a rest ih =>
    intro hp
    simp only [List.map_cons, List.flatten_cons]
    exact (hp a (by simp)).append (ih (fun x hx => hp x (by simp [hx])))

/-- At a level change inside the line, the found item index steps by one. -/
theorem findRange_jump (levels : List ℕ) (ranges : List Rng) (c d s e b : ℕ)
    (hcov : coversB ranges c d = true)
    (hconst : constLevels levels ranges s e = true)
    (hcs : c ≤ s) (hed : e ≤ d) (hsb : s ≤ b - 1) (hb1 : 1 ≤ b) (hbe : b < e)
    (hlev : levelAt levels (b - 1) ≠ levelAt levels b) :
    (findRange ranges b).getD 0 = (findRange ranges (b - 1)).getD 0 + 1 := by
  have hadj := findRange_adj ranges c d (b - 1) hcov (by omega)
    (by omega : b - 1 + 1 < d)
  rw [show b - 1 + 1 = b by omega] at hadj
  rcases hadj with hsame | ⟨k, hk1, hk2⟩
  · exfalso
    obtain ⟨k, hk, hklen, hks, hke⟩ :=
      coversB_find ranges c d (b - 1) hcov (by omega) (by omega)
    obtain ⟨k2, hk2, hk2len, hk2s, hk2e⟩ :=
      coversB_find ranges c d b hcov (by omega) (by omega)
    rw [hsame, hk] at hk2
    injection hk2 with hkk
    subst hkk
    have hmem : ranges.getD k ⟨0, 0⟩ ∈ ranges := by
      rw [List.getD_eq_getElem _ _ hklen]
      exact List.getElem_mem _
    exact hlev (constLevels_eq levels ranges s e hconst _ hmem (b - 1) b
      hks hke (by omega) (by omega) hk2s hk2e (by omega) hbe)
  · rw [hk1, hk2]
    rfl

/-- Over the line's ranges, the item-index intervals of a contiguous run
decomposition of `[a, e)` concatenate to one index interval. -/
theorem runs_flatten_idx (levels : List ℕ) (ranges : List Rng) (c d s e : ℕ)
    (hcov : coversB ranges c d = true)
    (hconst : constLevels levels ranges s e = true)
    (hcs : c ≤ s) (hed : e ≤ d) :
    ∀ (rs : List Rng) (a : ℕ), coversB rs a e = true → s ≤ a → a < e →
      (∀ r ∈ rs,
        (∀ i, r.start ≤ i → i < r.stop → levelAt levels i = levelAt levels r.start) ∧
          (r.stop < e → levelAt levels r.stop ≠ levelAt levels r.start)) →
      (rs.map (fun r => List.range' ((findRange ranges r.start).getD 0)
          ((findRange ranges (r.stop - 1)).getD 0 + 1 -
            (findRange ranges r.start).getD 0))).flatten
        = List.range' ((findRange ranges a).getD 0)
            ((findRange ranges (e - 1)).getD 0 + 1 - (findRange ranges a).getD 0) := by
  intro rs
  induction rs with
  | nil =>
    intro a hcov2 hsa hae _
    simp only [coversB, beq_iff_eq] at hcov2
    omega
  | cons r rest ih =>
    intro a hcov2 hsa hae hprops
    simp only [coversB, Bool.and_eq_true, beq_iff_eq, decide_eq_true_eq] at hcov2
    obtain ⟨⟨hra, hralt⟩, hcov3⟩ := hcov2
    subst hra
    cases rest with
    | nil =>
      simp only [coversB, beq_iff_eq] at hcov3
      subst hcov3
      simp
    | cons r2 rs2 =>
      have hrestcov : coversB (r2 :: rs2) r.stop e = true := hcov3
      have hmem2 := coversB_mem (r2 :: rs2) r.stop e hrestcov r2 (by simp)
      have hr2start : r2.start = r.stop := by
        simp only [coversB, Bool.and_eq_true, beq_iff_eq, decide_eq_true_eq] at hrestcov
        exact hrestcov.1.1
      have hbe : r.stop < e := by omega
      -- the level changes at r.stop
      have hlev : levelAt levels (r.stop - 1) ≠ levelAt levels r.stop := by
        have hconst_r := (hprops r (by simp)).1 (r.stop - 1) (by omega) (by omega)
        have hstop_r := (hprops r (by simp)).2 hbe
        rw [hconst_r]
        exact fun hcontr => hstop_r hcontr.symm
      have hjump := findRange_jump levels ranges c d s e r.stop hcov hconst hcs hed
        (by omega) (by omega) hbe hlev
      have hrec := ih r.stop hcov3 (by omega) hbe
        (fun r' hr' => hprops r' (by simp [hr']))
      rw [List.map_cons, List.flatten_cons, hrec]
      -- monotonicity facts for the range' arithmetic
      have hm1 := findRange_mono ranges c d r.start (r.stop - 1) hcov (by omega)
        (by omega) (by omega)
      have hm2 := findRange_mono ranges c d r.stop (e - 1) hcov (by omega)
        (by omega) (by omega)
      rw [show (findRange ranges r.stop).getD 0 =
          (findRange ranges r.start).getD 0 +
            1 * ((findRange ranges (r.stop - 1)).getD 0 + 1 -
              (findRange ranges r.start).getD 0) by omega]
      rw [List.range'_append]
      congr 1
      omega

/-- C8 (amended): for every line with a nonempty range whose `ranges` slice
contiguously covers an interval around the line, whose items align with the
ranges the line touches, and whose embedding levels are constant on each item
range within the line (all guaranteed by `ParLayout::new` and
`ParLayout::line`), the items produced by `reordered()` in visual order are a
permutation of `items()` in logical order. -/
theorem reordered_perm (l : LineLayout) (c d : ℕ)
    (hcov : coversB l.ranges c d = true)
    (hcs : c ≤ l.range.start)
    (hed : l.range.stop ≤ d)
    (hse : l.range.start < l.range.stop)
    (hfirst : findRange l.ranges l.range.start = some 0)
    (hlastidx : findRange l.ranges (l.range.stop - 1) = some (l.itemsView.length - 1))
    (hnpos : 0 < l.itemsView.length)
    (hconst : constLevels l.bidi.levels l.ranges l.range.start l.range.stop = true)
    (hpara : (l.bidi.paragraphs.find? (fun p => p.containsB l.range.start)).isSome = true) :
    ∃ v, l.reordered = some v ∧ v.Perm l.itemsView := by
  obtain ⟨para, hpara'⟩ := Option.isSome_iff_exists.mp hpara
  have hlogcov := logicalRuns_covers l.bidi.levels l.range.start l.range.stop
    (le_of_lt hse)
  have hperm_runs :=
    reorderRuns_perm l.bidi.levels (logicalRuns l.bidi.levels l.range.start l.range.stop)
  have hrunbound : ∀ run ∈ reorderRuns l.bidi.levels
      (logicalRuns l.bidi.levels l.range.start l.range.stop),
      l.range.start ≤ run.start ∧ run.start < run.stop ∧ run.stop ≤ l.range.stop := by
    intro run hrun
    exact coversB_mem _ _ _ hlogcov run (hperm_runs.mem_iff.mp hrun)
  -- the per-run index list, with and without direction reversal
  have hmapM1 := mapM_eq_some_map
    (fun run => do
      let first_idx ← l.find run.start
      let last_idx ← l.find (run.stop - 1)
      let idxs := List.range' first_idx (last_idx + 1 - first_idx)
      pure (if levelAt l.bidi.levels run.start % 2 == 0 then idxs else idxs.reverse))
    (fun run =>
      let idxs := List.range' ((findRange l.ranges run.start).getD 0)
        ((findRange l.ranges (run.stop - 1)).getD 0 + 1 -
          (findRange l.ranges run.start).getD 0)
      if levelAt l.bidi.levels run.start % 2 == 0 then idxs else idxs.reverse)
    (reorderRuns l.bidi.levels (logicalRuns l.bidi.levels l.range.start l.range.stop))
    (by
      intro run hrun
      obtain ⟨hb1, hb2, hb3⟩ := hrunbound run hrun
      obtain ⟨k, hk, _, _, _⟩ := coversB_find l.ranges c d run.start hcov
        (by omega) (by omega)
      obtain ⟨k', hk', _, _, _⟩ := coversB_find l.ranges c d (run.stop - 1) hcov
        (by omega) (by omega)
      simp [LineLayout.find, hk, hk', Option.pure_def, Option.bind_eq_bind,
        Option.some_bind])
  -- the flattened index lists are a permutation of [0, n)
  have hflat1 := flatten_map_perm
    (fun run =>
      let idxs := List.range' ((findRange l.ranges run.start).getD 0)
        ((findRange l.ranges (run.stop - 1)).getD 0 + 1 -
          (findRange l.ranges run.start).getD 0)
      if levelAt l.bidi.levels run.start % 2 == 0 then idxs else idxs.reverse)
    (fun run => List.range' ((findRange l.ranges run.start).getD 0)
      ((findRange l.ranges (run.stop - 1)).getD 0 + 1 -
        (findRange l.ranges run.start).getD 0))
    (reorderRuns l.bidi.levels (logicalRuns l.bidi.levels l.range.start l.range.stop))
    (by
      intro run _
      simp only []
      split
      · exact List.Perm.refl _
      · exact List.reverse_perm _)
  have hflat2 := perm_flatten (hperm_runs.map
    (fun run => List.range' ((findRange l.ranges run.start).getD 0)
      ((findRange l.ranges (run.stop - 1)).getD 0 + 1 -
        (findRange l.ranges run.start).getD 0)))
  have hflat3 := runs_flatten_idx l.bidi.levels l.ranges c d l.range.start l.range.stop
    hcov hconst hcs hed
    (logicalRuns l.bidi.levels l.range.start l.range.stop) l.range.start
    hlogcov (le_refl _) hse
    (fun r hr => logicalRunsAux_levels l.bidi.levels _ _ _ r hr)
  rw [hfirst, hlastidx] at hflat3
  simp only [Option.getD_some] at hflat3
  rw [show l.itemsView.length - 1 + 1 - 0 = l.itemsView.length by omega] at hflat3
  have hflat : (((reorderRuns l.bidi.levels
      (logicalRuns l.bidi.levels l.range.start l.range.stop)).map
      (fun run =>
        let idxs := List.range' ((findRange l.ranges run.start).getD 0)
          ((findRange l.ranges (run.stop - 1)).getD 0 + 1 -
            (findRange l.ranges run.start).getD 0)
        if levelAt l.bidi.levels run.start % 2 == 0 then idxs else idxs.reverse)).flatten).Perm
      (List.range' 0 l.itemsView.length) := by
    refine (hflat1.trans hflat2).trans ?_
    rw [hflat3]
  -- mapping the indices through items() succeeds and permutes items()
  have hmapM2 := mapM_eq_some_map l.get
    (fun i => l.itemsView.getD i (ParItem.absolute 0))
    (((reorderRuns l.bidi.levels
      (logicalRuns l.bidi.levels l.range.start l.range.stop)).map
      (fun run =>
        let idxs := List.range' ((findRange l.ranges run.start).getD 0)
          ((findRange l.ranges (run.stop - 1)).getD 0 + 1 -
            (findRange l.ranges run.start).getD 0)
        if levelAt l.bidi.levels run.start % 2 == 0 then idxs else idxs.reverse)).flatten)
    (by
      intro i hi
      have hmem := hflat.mem_iff.mp hi
      rw [List.mem_range'_1] at hmem
      have hi_lt : i < l.itemsView.length := by omega
      show l.itemsView.get? i = some (l.itemsView.getD i (ParItem.absolute 0))
      rw [List.getD_eq_getElem _ _ hi_lt, List.get?_eq_getElem?]
      exact List.getElem?_eq_getElem hi_lt)
  have hre : l.reordered = some ((((reorderRuns l.bidi.levels
      (logicalRuns l.bidi.levels l.range.start l.range.stop)).map
      (fun run =>
        let idxs := List.range' ((findRange l.ranges run.start).getD 0)
          ((findRange l.ranges (run.stop - 1)).getD 0 + 1 -
            (findRange l.ranges run.start).getD 0)
        if levelAt l.bidi.levels run.start % 2 == 0 then idxs
        else idxs.reverse)).flatten).map
      (fun i => l.itemsView.getD i (ParItem.absolute 0))) := by
    unfold LineLayout.reordered
    have hne : l.range.isEmpty = false := by
      simp only [Rng.isEmpty, decide_eq_false_iff_not]
      omega
    rw [hne]
    simp only [Bool.false_eq_true, if_false, hpara', Option.pure_def,
      Option.bind_eq_bind, Option.some_bind]
    rw [show (visual_runs l.bidi para l.range).1 = l.bidi.levels from rfl,
      show (visual_runs l.bidi para l.range).2 = reorderRuns l.bidi.levels
        (logicalRuns l.bidi.levels l.range.start l.range.stop) from rfl]
    simp only [Option.pure_def, Option.bind_eq_bind] at hmapM1
    rw [hmapM1]
    simp only [Option.some_bind]
    rw [hmapM2]
  exact ⟨_, hre, (List.Perm.map _ hflat).trans
    (by rw [map_getD_range' l.itemsView (ParItem.absolute 0)])⟩

/-- The trailing empty line of "a\n\n" (range `[2,2)` after trimming): its
`items()` holds the one empty reshaped text item, but `reordered()` yields no
runs for an empty range. -/
def wLineEmpty : LineLayout :=
  ((mkParOneRun "a\n\n".data).line Fc ⟨2, 3⟩ true false).getD default

/-- C8 counterexample: for the empty-range trailing line produced by the real
pipeline, `reordered()` yields zero items while `items()` yields one — visual
order is not a permutation of logical order for every `LineLayout`. -/
theorem reordered_not_perm_empty_line :
    (mkParOneRun "a\n\n".data).line Fc ⟨2, 3⟩ true false = some wLineEmpty ∧
    wLineEmpty.reordered = some [] ∧ wLineEmpty.itemsView.length = 1 ∧
    ¬ ∃ v, wLineEmpty.reordered = some v ∧ v.Perm wLineEmpty.itemsView := by
  refine ⟨by decide, by decide, by decide, ?_⟩
  rintro ⟨v, hv, hperm⟩
  rw [show wLineEmpty.reordered = some [] from by decide] at hv
  injection hv with hv
  subst hv
  have hlen := hperm.length_eq
  rw [show wLineEmpty.itemsView.length = 1 from by decide] at hlen
  cases hlen

/-- A two-item mixed-direction paragraph: an RTL run "abc" (level 1) followed
by an LTR run "DE" (level 0). -/
def parBidi : ParLayout :=
  { bidi := { text := "abcDE".data, levels := [1, 1, 1, 0, 0], paragraphs := [⟨0, 5⟩] }
    items := [ParItem.text (shape Fc "abc".data), ParItem.text (shape Fc "DE".data)]
    ranges := [⟨0, 3⟩, ⟨3, 5⟩] }

/-- The full line over the mixed-direction paragraph. -/
def wLineBidi : LineLayout := (parBidi.line Fc ⟨0, 5⟩ true false).getD default

theorem reordered_perm_witness :
    ∃ v, wLineBidi.reordered = some v ∧ v.Perm wLineBidi.itemsView :=
  reordered_perm wLineBidi 0 5 (by decide) (by decide) (by decide) (by decide)
    (by decide) (by decide) (by decide) (by decide) (by decide)

end Par
